import Mathlib

/-!
# Verification of the micrograd scalar autograd engine

Shallow embedding of `src/03_micrograd/micrograd_final.py` (class `Value`).

The Python code builds a directed acyclic object graph: each `Value` holds a
float `data`, a float `grad` (initialised to `0.0`), a set `_prev` of operand
references, and a closure `_backward` that adds this node's local-derivative
contributions to its operands' `grad` fields.  `backward()` builds a
topological order by depth-first search and then runs the closures in reverse.

We model the object heap as an arena: a `List Value` indexed by `Nat`.  Node
identity (Python object identity, which is what membership in the `visited`
set and in `_prev` uses) is arena index.  A node's operation together with its
operand indices is stored in an `Op` tag; the `_backward` closure of each
operation is recovered from that tag by `runBack`, which performs exactly the
sequence of `grad` updates the corresponding Python closure performs.  Python
floats are modelled as real numbers.  The `label` / `_op` string fields of the
source are purely diagnostic (never read by the algorithm) and are not
modelled.
-/

namespace Micrograd

open Topology Filter

noncomputable section

/-- Which operation produced a node, with the arena indices of its operands.
Mirrors the `_children` tuples passed to `Value.__init__` by each operation
of the source: `__add__`, `__mul__`, `__pow__` (constant exponent only),
`tanh`, `relu`, `exp`; `leaf` is a `Value` built directly from a number. -/
inductive Op where
  | leaf : Op
  | add (a b : Nat) : Op
  | mul (a b : Nat) : Op
  | powc (a : Nat) (n : ℤ) : Op
  | tanh (a : Nat) : Op
  | relu (a : Nat) : Op
  | exp (a : Nat) : Op
  deriving DecidableEq, Repr

/-- One scalar node: `self.data`, `self.grad`, and the operation that produced
it (which determines `_prev` and `_backward`). -/
structure Value where
  data : ℝ
  grad : ℝ
  op : Op

instance : Inhabited Value := ⟨⟨0, 0, Op.leaf⟩⟩

/-- The object heap: all nodes, identified by position. -/
abbrev Graph := List Value

/-- Length of the arena. -/
def glen (G : Graph) : Nat := List.length G

/-- Node lookup by index (out-of-range reads give the default node; all
theorems constrain indices to be in range where it matters). -/
def nthV : Graph → Nat → Value
  | [], _ => default
  | v :: _, 0 => v
  | _ :: t, n + 1 => nthV t n

def dataAt (G : Graph) (i : Nat) : ℝ := (nthV G i).data

def gradAt (G : Graph) (i : Nat) : ℝ := (nthV G i).grad

def opAt (G : Graph) (i : Nat) : Op := (nthV G i).op

/-- In-place update of one node (a no-op out of range), modelling a field
assignment on a Python object. -/
def upd : Graph → Nat → (Value → Value) → Graph
  | [], _, _ => []
  | v :: t, 0, f => f v :: t
  | v :: t, n + 1, f => v :: upd t n f

/-- `node.grad += δ`. -/
def addGrad (G : Graph) (i : Nat) (δ : ℝ) : Graph :=
  upd G i fun v => ⟨v.data, v.grad + δ, v.op⟩

/-- `node.grad = g`. -/
def setGrad (G : Graph) (i : Nat) (g : ℝ) : Graph :=
  upd G i fun v => ⟨v.data, g, v.op⟩

/-- The `_children` tuple of a node, in the order the source passes it to
`Value.__init__` (so a node used twice, as in `x + x`, appears twice). -/
def childList : Op → List Nat
  | Op.leaf => []
  | Op.add a b => [a, b]
  | Op.mul a b => [a, b]
  | Op.powc a _ => [a]
  | Op.tanh a => [a]
  | Op.relu a => [a]
  | Op.exp a => [a]

/-- `self._prev = set(_children)`: the operand *set*; building a Python set
deduplicates, so a shared operand appears once. -/
def prevOf (G : Graph) (v : Nat) : List Nat := (childList (opAt G v)).dedup

/-! ## Forward operations

Each mirrors one method of `Value`: it computes the forward result with the
same formula the source uses and appends the freshly constructed output node
to the arena, returning the new arena and the index of the output node. -/

/-- `Value(x)`: a leaf node. `grad` starts at `0.0`, `_prev` is empty. -/
def mkValue (x : ℝ) : Value := ⟨x, 0, Op.leaf⟩

/-- `Value.__add__`: `out = Value(self.data + other.data, (self, other), '+')`. -/
def vadd (G : Graph) (i j : Nat) : Graph × Nat :=
  (G ++ [⟨dataAt G i + dataAt G j, 0, Op.add i j⟩], glen G)

/-- `Value.__mul__`: `out = Value(self.data * other.data, (self, other), '*')`. -/
def vmul (G : Graph) (i j : Nat) : Graph × Nat :=
  (G ++ [⟨dataAt G i * dataAt G j, 0, Op.mul i j⟩], glen G)

/-- `a + 2`: the plain number is coerced by `other = Value(other)` inside
`__add__`, then the sum node is built. -/
def vaddNum (G : Graph) (i : Nat) (x : ℝ) : Graph × Nat :=
  vadd (G ++ [mkValue x]) i (glen G)

/-- `2 + a` calls `Value.__radd__(self, other)`, whose body is `return self + other`. -/
def vraddNum (x : ℝ) (G : Graph) (i : Nat) : Graph × Nat :=
  vaddNum G i x

/-- The argument of `Value.__pow__`: either a plain number or another node. -/
inductive PowArg where
  | num (n : ℤ) : PowArg
  | node (j : Nat) : PowArg

/-- `Value.__pow__`: `assert isinstance(other, (int, float)), "only supports
int/float powers"` — a node-valued exponent raises immediately, before any
output node is constructed.  Constant exponents are modelled as integers
(the repository only ever uses `**2` and `**-1`). -/
def vpow (G : Graph) (i : Nat) : PowArg → Except String (Graph × Nat)
  | PowArg.node _ => Except.error "only supports int/float powers"
  | PowArg.num n => Except.ok (G ++ [⟨dataAt G i ^ n, 0, Op.powc i n⟩], glen G)

/-- `Value.tanh`: `t = (math.exp(2*x) - 1) / (math.exp(2*x) + 1)`. -/
def vtanh (G : Graph) (i : Nat) : Graph × Nat :=
  (G ++ [⟨(Real.exp (2 * dataAt G i) - 1) / (Real.exp (2 * dataAt G i) + 1), 0,
    Op.tanh i⟩], glen G)

/-- `Value.relu`: `out = Value(0 if self.data < 0 else self.data, (self,), 'ReLU')`. -/
def vrelu (G : Graph) (i : Nat) : Graph × Nat :=
  (G ++ [⟨if dataAt G i < 0 then 0 else dataAt G i, 0, Op.relu i⟩], glen G)

/-- `Value.exp`: `out = Value(math.exp(x), (self,), 'exp')`. -/
def vexp (G : Graph) (i : Nat) : Graph × Nat :=
  (G ++ [⟨Real.exp (dataAt G i), 0, Op.exp i⟩], glen G)

/-! ## The backward closures

`runBack G w` performs on the arena exactly the sequence of `grad` updates
that `G[w]._backward()` performs in the source, reading every field from the
current heap at the moment the corresponding Python statement reads it. -/

/-- One `_backward()` call.  Leaf nodes have `_backward = lambda: None`. -/
def runBack (G : Graph) (w : Nat) : Graph :=
  match opAt G w with
  | Op.leaf => G
  | Op.add a b =>
      -- self.grad += out.grad ; other.grad += out.grad
      let G1 := addGrad G a (gradAt G w)
      addGrad G1 b (gradAt G1 w)
  | Op.mul a b =>
      -- self.grad += other.data * out.grad ; other.grad += self.data * out.grad
      let G1 := addGrad G a (dataAt G b * gradAt G w)
      addGrad G1 b (dataAt G1 a * gradAt G1 w)
  | Op.powc a n =>
      -- self.grad += other * (self.data ** (other - 1)) * out.grad
      addGrad G a ((n : ℝ) * dataAt G a ^ (n - 1) * gradAt G w)
  | Op.tanh a =>
      -- self.grad += (1 - t**2) * out.grad, where t is the captured out.data
      addGrad G a ((1 - dataAt G w ^ 2) * gradAt G w)
  | Op.relu a =>
      -- self.grad += (out.data > 0) * out.grad
      addGrad G a ((if 0 < dataAt G w then 1 else 0) * gradAt G w)
  | Op.exp a =>
      -- self.grad += out.data * out.grad
      addGrad G a (dataAt G w * gradAt G w)

/-! ## Topological ordering (`build_topo`)

The source iterates `for child in v._prev` where `_prev` is a Python set, so
the enumeration order of the operands is not specified.  The traversal is
therefore parameterised by an enumeration function `e`; the engine's own run
uses `prevOf` (the deduplicated child list).  The Python recursion terminates
because the graph is acyclic; we supply the recursion depth as fuel, and all
theorems use fuel `root + 1`, which is sufficient on well-formed arenas since
every operand index is smaller than its consumer's index. -/

mutual
/-- `build_topo(v)`: state is `(visited, topo)`. -/
def dfsN (G : Graph) (e : Nat → List Nat) : Nat → Nat → List Nat × List Nat → List Nat × List Nat
  | 0, _, s => s
  | fuel + 1, i, s =>
      if i ∈ s.1 then s
      else
        let s2 := dfsL G e fuel (e i) (i :: s.1, s.2)
        (s2.1, s2.2 ++ [i])
  termination_by fuel _ _ => (fuel, 0)

/-- `for child in v._prev: build_topo(child)`. -/
def dfsL (G : Graph) (e : Nat → List Nat) : Nat → List Nat → List Nat × List Nat → List Nat × List Nat
  | _, [], s => s
  | fuel, c :: cs, s => dfsL G e fuel cs (dfsN G e fuel c s)
  termination_by fuel cs _ => (fuel, cs.length + 1)
end

/-- The list `topo` computed inside `backward()`, for enumeration order `e`. -/
def buildTopoWith (e : Nat → List Nat) (G : Graph) (root : Nat) : List Nat :=
  (dfsN G e (root + 1) root ([], [])).2

/-- The list `topo` computed inside `backward()`. -/
def buildTopo (G : Graph) (root : Nat) : List Nat :=
  buildTopoWith (prevOf G) G root

/-- `Value.backward`, with the operand enumeration order made explicit:
build the topological order, seed `self.grad = 1.0`, then call `_backward`
on every node in reverse topological order. -/
def backwardWith (e : Nat → List Nat) (G : Graph) (root : Nat) : Graph :=
  let topo := buildTopoWith e G root
  let G1 := setGrad G root 1
  topo.reverse.foldl runBack G1

/-- `Value.backward`. -/
def backward (G : Graph) (root : Nat) : Graph :=
  backwardWith (prevOf G) G root

/-! ## Functional model of the gradient state

For the propagation proofs it is convenient to track only the gradients, as a
function `Nat → ℝ`.  `contribs G w` lists, in order, the `(target, local
derivative)` pairs of the `+=` statements in `G[w]._backward`; the simulation
lemmas below prove that on well-formed arenas `runBack` changes the gradient
map exactly by this fold. -/

/-- The `(operand, local-derivative coefficient)` pairs of node `w`'s
backward closure, in the order its `+=` statements execute. -/
def contribs (G : Graph) (w : Nat) : List (Nat × ℝ) :=
  match opAt G w with
  | Op.leaf => []
  | Op.add a b => [(a, 1), (b, 1)]
  | Op.mul a b => [(a, dataAt G b), (b, dataAt G a)]
  | Op.powc a n => [(a, (n : ℝ) * dataAt G a ^ (n - 1))]
  | Op.tanh a => [(a, 1 - dataAt G w ^ 2)]
  | Op.relu a => [(a, if 0 < dataAt G w then 1 else 0)]
  | Op.exp a => [(a, dataAt G w)]

/-- Total coefficient with which node `w`'s closure feeds `w`'s gradient into
node `v`'s gradient (summing repeated occurrences of a shared operand). -/
def coeff (G : Graph) (w v : Nat) : ℝ :=
  ((contribs G w).map fun ck => if ck.1 = v then ck.2 else 0).sum

/-- One `_backward()` call on the gradient map. -/
def stepF (G : Graph) (w : Nat) (g : Nat → ℝ) : Nat → ℝ :=
  (contribs G w).foldl (fun h ck => Function.update h ck.1 (h ck.1 + ck.2 * g w)) g

/-- The reverse sweep on the gradient map. -/
def sweepF (G : Graph) (p : List Nat) (g : Nat → ℝ) : Nat → ℝ :=
  p.foldl (fun h w => stepF G w h) g

/-- The gradient map of an arena. -/
def gradsOf (G : Graph) : Nat → ℝ := fun v => gradAt G v

/-! ## Specification-side notions -/

/-- Arena well-formedness: every operand of a node was constructed before the
node itself.  This is the source's construction invariant — an operation's
output `Value` is allocated after its operands exist — and is what makes the
object graph acyclic. -/
def WF (G : Graph) : Prop :=
  ∀ v < glen G, ∀ c ∈ childList (opAt G v), c < v

instance (G : Graph) : Decidable (WF G) :=
  inferInstanceAs (Decidable (∀ v < glen G, ∀ c ∈ childList (opAt G v), c < v))

/-- Local data consistency for one node: its stored `data` is the value the
producing operation computed from its operands' stored `data`, with the
formulas of the source. -/
def LocalOK (G : Graph) (v : Nat) : Prop :=
  match opAt G v with
  | Op.leaf => True
  | Op.add a b => dataAt G v = dataAt G a + dataAt G b
  | Op.mul a b => dataAt G v = dataAt G a * dataAt G b
  | Op.powc a n => dataAt G v = dataAt G a ^ n
  | Op.tanh a =>
      dataAt G v = (Real.exp (2 * dataAt G a) - 1) / (Real.exp (2 * dataAt G a) + 1)
  | Op.relu a => dataAt G v = if dataAt G a < 0 then 0 else dataAt G a
  | Op.exp a => dataAt G v = Real.exp (dataAt G a)

/-- Every node's `data` is consistent with its operands (holds for every arena
actually produced by the forward operations). -/
def DataOK (G : Graph) : Prop := ∀ v < glen G, LocalOK G v

/-- Differentiability side conditions: each `relu` input is away from the
kink, each constant power is differentiable at its base. -/
def LocalNice (G : Graph) (v : Nat) : Prop :=
  match opAt G v with
  | Op.powc a n => dataAt G a ≠ 0 ∨ 0 ≤ n
  | Op.relu a => dataAt G a ≠ 0
  | _ => True

/-- All differentiability side conditions hold. -/
def Nice (G : Graph) : Prop := ∀ v < glen G, LocalNice G v

/-- Nodes reachable from the root along operand references — exactly the
nodes `build_topo` can ever see. -/
inductive Reachable (G : Graph) (root : Nat) : Nat → Prop where
  | refl : Reachable G root root
  | step {v c : Nat} : Reachable G root v → c ∈ childList (opAt G v) →
      Reachable G root c

/-- A valid topological order as built by appending: each node is appended
only after all of its operands are present. -/
inductive TopoOK (G : Graph) : List Nat → Prop where
  | nil : TopoOK G []
  | snoc {t : List Nat} {v : Nat} : TopoOK G t →
      (∀ c ∈ childList (opAt G v), c ∈ t) → TopoOK G (t ++ [v])

/-- Validity of a processing order for the reverse sweep: when a node is
processed, all of its operands are still pending, and no pending node
consumes it (so its own gradient is final). -/
inductive ProcValid (G : Graph) : List Nat → Prop where
  | nil : ProcValid G []
  | cons {v : Nat} {p : List Nat} :
      (∀ c ∈ childList (opAt G v), c ∈ p) →
      (∀ u ∈ p, v ∉ childList (opAt G u)) →
      v ∉ p → ProcValid G p → ProcValid G (v :: p)

/-- The enumeration function `e` enumerates exactly the operands (`_prev`
membership), in some order. -/
def EnumOK (G : Graph) (e : Nat → List Nat) : Prop :=
  ∀ v c, c ∈ e v ↔ c ∈ childList (opAt G v)

/-- Invariant of the DFS state `s = (visited, topo)` relative to the list `P`
of nodes whose visits are still in progress on the recursion stack: a node is
visited exactly when it is already in the output order or still in progress,
the output order has no duplicates, no in-progress node is in the output yet,
and the output is a valid topological order so far. -/
def DfsInv (G : Graph) (P : List Nat) (s : List Nat × List Nat) : Prop :=
  (∀ x, x ∈ s.1 ↔ x ∈ s.2 ∨ x ∈ P) ∧ s.2.Nodup ∧ (∀ x ∈ P, x ∉ s.2) ∧ TopoOK G s.2

/-- Postcondition of one `build_topo(i)` call. -/
def DfsPostN (G : Graph) (i : Nat) (s s' : List Nat × List Nat) : Prop :=
  i ∈ s'.2 ∧ s.2 <+: s'.2 ∧ (∀ x ∈ s.1, x ∈ s'.1) ∧
  (∀ x ∈ s'.1, x ∈ s.1 ∨ Reachable G i x)

/-- Full specification of `dfsN` at fuel `f`. -/
def SpecN (G : Graph) (e : Nat → List Nat) (f : Nat) : Prop :=
  ∀ i s P, i < f → DfsInv G P s → (∀ x ∈ P, i < x) →
    DfsInv G P (dfsN G e f i s) ∧ DfsPostN G i s (dfsN G e f i s)

/-- Postcondition of the loop over a node's operands. -/
def DfsPostL (G : Graph) (cs : List Nat) (s s' : List Nat × List Nat) : Prop :=
  (∀ c ∈ cs, c ∈ s'.1) ∧ s.2 <+: s'.2 ∧ (∀ x ∈ s.1, x ∈ s'.1) ∧
  (∀ x ∈ s'.1, x ∈ s.1 ∨ ∃ c ∈ cs, Reachable G c x)

/-- Full specification of `dfsL` at fuel `f`. -/
def SpecL (G : Graph) (e : Nat → List Nat) (f : Nat) : Prop :=
  ∀ cs s P, (∀ c ∈ cs, c < f) → DfsInv G P s → (∀ c ∈ cs, ∀ x ∈ P, c < x) →
    DfsInv G P (dfsL G e f cs s) ∧ DfsPostL G cs s (dfsL G e f cs s)

/-! ## Recomputation semantics (for gradient correctness)

`evalNode G xs v` recomputes the value of node `v` when the leaf nodes carry
the values `xs` instead of their stored data; this is "the computed function"
`f(x₁, …, xₙ)` of the specification.  Fuel-based for termination; on
well-formed arenas fuel `v + 1` is exact. -/

def evalN (G : Graph) (xs : Nat → ℝ) : Nat → Nat → ℝ
  | 0, v => xs v
  | fuel + 1, v =>
      match opAt G v with
      | Op.leaf => xs v
      | Op.add a b => evalN G xs fuel a + evalN G xs fuel b
      | Op.mul a b => evalN G xs fuel a * evalN G xs fuel b
      | Op.powc a n => evalN G xs fuel a ^ n
      | Op.tanh a =>
          (Real.exp (2 * evalN G xs fuel a) - 1) / (Real.exp (2 * evalN G xs fuel a) + 1)
      | Op.relu a => if evalN G xs fuel a < 0 then 0 else evalN G xs fuel a
      | Op.exp a => Real.exp (evalN G xs fuel a)

/-- The value of node `v` as a function of the leaf values. -/
def evalNode (G : Graph) (xs : Nat → ℝ) (v : Nat) : ℝ := evalN G xs (v + 1) v

/-- Forward-mode derivative of node `v` with respect to leaf `ℓ`, read off
from the stored data (the coefficients are exactly the local derivatives the
backward closures use). -/
def dN (G : Graph) (ℓ : Nat) : Nat → Nat → ℝ
  | 0, v => if v = ℓ then 1 else 0
  | fuel + 1, v =>
      match opAt G v with
      | Op.leaf => if v = ℓ then 1 else 0
      | Op.add a b => dN G ℓ fuel a + dN G ℓ fuel b
      | Op.mul a b => dataAt G b * dN G ℓ fuel a + dataAt G a * dN G ℓ fuel b
      | Op.powc a n => (n : ℝ) * dataAt G a ^ (n - 1) * dN G ℓ fuel a
      | Op.tanh a => (1 - dataAt G v ^ 2) * dN G ℓ fuel a
      | Op.relu a => (if 0 < dataAt G v then 1 else 0) * dN G ℓ fuel a
      | Op.exp a => dataAt G v * dN G ℓ fuel a

/-- Forward-mode derivative of node `v` with respect to leaf `ℓ`. -/
def dFwd (G : Graph) (ℓ v : Nat) : ℝ := dN G ℓ (v + 1) v

end

/-! # Basic arena lemmas -/

theorem nthV_ge {G : Graph} {i : Nat} (h : glen G ≤ i) : nthV G i = default := by
  induction G generalizing i with
  | nil => cases i <;> rfl
  | cons v t ih =>
      cases i with
      | zero => simp [glen] at h
      | succ n => exact ih (by simpa [glen, Nat.succ_le_succ_iff] using h)

theorem nthV_append_lt {G L : Graph} {i : Nat} (h : i < glen G) :
    nthV (G ++ L) i = nthV G i := by
  induction G generalizing i with
  | nil => simp [glen] at h
  | cons v t ih =>
      cases i with
      | zero => rfl
      | succ n => exact ih (by simpa [glen, Nat.succ_lt_succ_iff] using h)

theorem nthV_append_len {G : Graph} {L : Graph} {k : Nat} :
    nthV (G ++ L) (glen G + k) = nthV L k := by
  induction G with
  | nil => simp [glen]
  | cons v t ih => simpa [glen, Nat.succ_add] using ih

theorem nthV_append_self {G : Graph} {v : Value} :
    nthV (G ++ [v]) (glen G) = v := by
  simpa using nthV_append_len (G := G) (L := [v]) (k := 0)

theorem glen_upd {G : Graph} {i : Nat} {f : Value → Value} :
    glen (upd G i f) = glen G := by
  induction G generalizing i with
  | nil => rfl
  | cons v t ih =>
      cases i with
      | zero => rfl
      | succ n => simpa [upd, glen] using ih (i := n)

theorem upd_ge {G : Graph} {i : Nat} {f : Value → Value} (h : glen G ≤ i) :
    upd G i f = G := by
  induction G generalizing i with
  | nil => rfl
  | cons v t ih =>
      cases i with
      | zero => simp [glen] at h
      | succ n => simp [upd, ih (by simpa [glen, Nat.succ_le_succ_iff] using h)]

theorem nthV_upd_self {G : Graph} {i : Nat} {f : Value → Value} (h : i < glen G) :
    nthV (upd G i f) i = f (nthV G i) := by
  induction G generalizing i with
  | nil => simp [glen] at h
  | cons v t ih =>
      cases i with
      | zero => rfl
      | succ n => exact ih (by simpa [glen, Nat.succ_lt_succ_iff] using h)

theorem nthV_upd_ne {G : Graph} {i j : Nat} {f : Value → Value} (h : j ≠ i) :
    nthV (upd G i f) j = nthV G j := by
  induction G generalizing i j with
  | nil => rfl
  | cons v t ih =>
      cases i with
      | zero => cases j with
          | zero => exact absurd rfl h
          | succ m => rfl
      | succ n =>
          cases j with
          | zero => rfl
          | succ m => exact ih (by omega)

theorem dataAt_addGrad {G : Graph} {i j : Nat} {δ : ℝ} :
    dataAt (addGrad G i δ) j = dataAt G j := by
  rcases eq_or_ne j i with rfl | h
  · rcases Nat.lt_or_ge j (glen G) with hl | hl
    · simp [dataAt, addGrad, nthV_upd_self hl]
    · simp [addGrad, upd_ge hl]
  · simp [dataAt, addGrad, nthV_upd_ne h]

theorem opAt_addGrad {G : Graph} {i j : Nat} {δ : ℝ} :
    opAt (addGrad G i δ) j = opAt G j := by
  rcases eq_or_ne j i with rfl | h
  · rcases Nat.lt_or_ge j (glen G) with hl | hl
    · simp [opAt, addGrad, nthV_upd_self hl]
    · simp [addGrad, upd_ge hl]
  · simp [opAt, addGrad, nthV_upd_ne h]

theorem glen_addGrad {G : Graph} {i : Nat} {δ : ℝ} :
    glen (addGrad G i δ) = glen G := glen_upd

theorem gradAt_addGrad_self {G : Graph} {i : Nat} {δ : ℝ} (h : i < glen G) :
    gradAt (addGrad G i δ) i = gradAt G i + δ := by
  simp [gradAt, addGrad, nthV_upd_self h]

theorem gradAt_addGrad_ne {G : Graph} {i j : Nat} {δ : ℝ} (h : j ≠ i) :
    gradAt (addGrad G i δ) j = gradAt G j := by
  simp [gradAt, addGrad, nthV_upd_ne h]

theorem dataAt_setGrad {G : Graph} {i j : Nat} {x : ℝ} :
    dataAt (setGrad G i x) j = dataAt G j := by
  rcases eq_or_ne j i with rfl | h
  · rcases Nat.lt_or_ge j (glen G) with hl | hl
    · simp [dataAt, setGrad, nthV_upd_self hl]
    · simp [setGrad, upd_ge hl]
  · simp [dataAt, setGrad, nthV_upd_ne h]

theorem opAt_setGrad {G : Graph} {i j : Nat} {x : ℝ} :
    opAt (setGrad G i x) j = opAt G j := by
  rcases eq_or_ne j i with rfl | h
  · rcases Nat.lt_or_ge j (glen G) with hl | hl
    · simp [opAt, setGrad, nthV_upd_self hl]
    · simp [setGrad, upd_ge hl]
  · simp [opAt, setGrad, nthV_upd_ne h]

theorem glen_setGrad {G : Graph} {i : Nat} {x : ℝ} :
    glen (setGrad G i x) = glen G := glen_upd

theorem gradAt_setGrad_self {G : Graph} {i : Nat} {x : ℝ} (h : i < glen G) :
    gradAt (setGrad G i x) i = x := by
  simp [gradAt, setGrad, nthV_upd_self h]

theorem gradAt_setGrad_ne {G : Graph} {i j : Nat} {x : ℝ} (h : j ≠ i) :
    gradAt (setGrad G i x) j = gradAt G j := by
  simp [gradAt, setGrad, nthV_upd_ne h]

theorem opAt_ge {G : Graph} {i : Nat} (h : glen G ≤ i) : opAt G i = Op.leaf := by
  rw [opAt, nthV_ge h]; rfl

theorem wf_children_lt {G : Graph} (hWF : WF G) :
    ∀ v, ∀ c ∈ childList (opAt G v), c < v := by
  intro v c hc
  rcases Nat.lt_or_ge v (glen G) with hv | hv
  · exact hWF v hv c hc
  · rw [opAt_ge hv] at hc
    simp [childList] at hc

/-! ## `runBack` touches only gradients (data, operands, length unchanged) -/

theorem dataAt_runBack {G : Graph} {w j : Nat} :
    dataAt (runBack G w) j = dataAt G j := by
  unfold runBack
  cases opAt G w <;> simp [dataAt_addGrad]

theorem opAt_runBack {G : Graph} {w j : Nat} :
    opAt (runBack G w) j = opAt G j := by
  unfold runBack
  cases opAt G w <;> simp [opAt_addGrad]

theorem glen_runBack {G : Graph} {w : Nat} :
    glen (runBack G w) = glen G := by
  unfold runBack
  cases opAt G w <;> simp [glen_addGrad]

theorem dataAt_foldl_runBack {p : List Nat} {G : Graph} {j : Nat} :
    dataAt (p.foldl runBack G) j = dataAt G j := by
  induction p generalizing G with
  | nil => rfl
  | cons w t ih => simp [List.foldl_cons, ih, dataAt_runBack]

theorem opAt_foldl_runBack {p : List Nat} {G : Graph} {j : Nat} :
    opAt (p.foldl runBack G) j = opAt G j := by
  induction p generalizing G with
  | nil => rfl
  | cons w t ih => simp [List.foldl_cons, ih, opAt_runBack]

theorem glen_foldl_runBack {p : List Nat} {G : Graph} :
    glen (p.foldl runBack G) = glen G := by
  induction p generalizing G with
  | nil => rfl
  | cons w t ih => simp [List.foldl_cons, ih, glen_runBack]

/-- C10: `backward()` never modifies any node's `data` field or operand
collection: the arena keeps its length, and every node keeps its `data` and
its operation tag (which carries all operand references).  The only fields
the whole pass writes are `grad` fields (the seed assignment and the
`addGrad` updates inside `runBack`). -/
theorem backward_writes_only_gradients (G : Graph) (root : Nat) :
    glen (backward G root) = glen G ∧
    (∀ v, dataAt (backward G root) v = dataAt G v) ∧
    (∀ v, opAt (backward G root) v = opAt G v) := by
  unfold backward backwardWith
  refine ⟨?_, fun v => ?_, fun v => ?_⟩
  · rw [glen_foldl_runBack, glen_setGrad]
  · rw [dataAt_foldl_runBack, dataAt_setGrad]
  · rw [opAt_foldl_runBack, opAt_setGrad]

/-- C8: calling `backward()` on a node with no operands seeds its own
gradient to `1.0` and does nothing else — the result is exactly the input
arena with that single `grad` field assigned. -/
theorem backward_on_leaf (G : Graph) (r : Nat) (h : opAt G r = Op.leaf) :
    backward G r = setGrad G r 1 := by
  unfold backward backwardWith buildTopoWith
  simp [dfsN, dfsL, prevOf, h, childList, runBack, opAt_setGrad]

theorem backward_on_leaf_witness :
    opAt [⟨(7 : ℝ), 0, Op.leaf⟩] 0 = Op.leaf ∧
    backward [⟨(7 : ℝ), 0, Op.leaf⟩] 0 = setGrad [⟨(7 : ℝ), 0, Op.leaf⟩] 0 1 :=
  ⟨rfl, backward_on_leaf [⟨(7 : ℝ), 0, Op.leaf⟩] 0 rfl⟩

/-- C2: for a leaf node `x` (any value, gradient zero), building `y = x + x`
— the same node used as both operands, so `_prev` holds a single reference —
and calling `y.backward()` leaves `x.grad == 2.0`: each use of the shared
operand contributes `out.grad` once. -/
theorem backward_shared_operand_accumulates (d : ℝ) :
    gradAt (backward (vadd [⟨d, 0, Op.leaf⟩] 0 0).1 (vadd [⟨d, 0, Op.leaf⟩] 0 0).2) 0
      = 2 := by
  norm_num [backward, backwardWith, buildTopoWith, vadd, dfsN, dfsL, prevOf,
    childList, opAt, nthV, glen, runBack, gradAt, dataAt, addGrad, setGrad, upd]

/-- C5: `relu` applied to a node with value exactly `0.0` produces an output
node with value `0.0`, and on backward the input's gradient receives a zero
contribution (it keeps its entry value `g0`).  The last conjunct makes the
gate explicit for an arbitrary input value `x` (entry gradients zero):
the input's gradient after `backward()` is `1` exactly when the output value
`max(0, x)` is strictly positive, and `0` otherwise. -/
theorem relu_zero_boundary (g0 x : ℝ) :
    dataAt (vrelu [⟨0, g0, Op.leaf⟩] 0).1 (vrelu [⟨0, g0, Op.leaf⟩] 0).2 = 0 ∧
    gradAt (backward (vrelu [⟨0, g0, Op.leaf⟩] 0).1 (vrelu [⟨0, g0, Op.leaf⟩] 0).2) 0
      = g0 ∧
    gradAt (backward (vrelu [⟨x, 0, Op.leaf⟩] 0).1 (vrelu [⟨x, 0, Op.leaf⟩] 0).2) 0
      = (if 0 < (if x < 0 then (0 : ℝ) else x) then 1 else 0) := by
  refine ⟨?_, ?_, ?_⟩ <;>
  · norm_num [backward, backwardWith, buildTopoWith, vrelu, dfsN, dfsL, prevOf,
      childList, opAt, nthV, glen, runBack, gradAt, dataAt, addGrad, setGrad, upd]

/-- C6: for a leaf node `a` with value `3.0` and the plain number `2`, both
`a + 2` (via `__add__`, which coerces `2` to a leaf `Value`) and `2 + a`
(via `__radd__`, whose body is `return self + other`) produce a node with
value `5.0`, and `backward()` on either result leaves `a.grad == 1.0`. -/
theorem add_numeral_both_sides :
    dataAt (vaddNum [⟨3, 0, Op.leaf⟩] 0 2).1 (vaddNum [⟨3, 0, Op.leaf⟩] 0 2).2 = 5 ∧
    gradAt (backward (vaddNum [⟨3, 0, Op.leaf⟩] 0 2).1
      (vaddNum [⟨3, 0, Op.leaf⟩] 0 2).2) 0 = 1 ∧
    dataAt (vraddNum 2 [⟨3, 0, Op.leaf⟩] 0).1 (vraddNum 2 [⟨3, 0, Op.leaf⟩] 0).2 = 5 ∧
    gradAt (backward (vraddNum 2 [⟨3, 0, Op.leaf⟩] 0).1
      (vraddNum 2 [⟨3, 0, Op.leaf⟩] 0).2) 0 = 1 := by
  refine ⟨?_, ?_, ?_, ?_⟩ <;>
  · norm_num [backward, backwardWith, buildTopoWith, vraddNum, vaddNum, vadd,
      mkValue, dfsN, dfsL, prevOf, childList, opAt, nthV, glen, runBack, gradAt,
      dataAt, addGrad, setGrad, upd]

/-- C7: raising a node to a node-valued exponent fails immediately at the
call site of `__pow__` (the `assert isinstance(other, (int, float))` fires
before any output node is constructed), while a constant exponent `n`
succeeds, and the attached backward rule adds `n * a.data^(n-1) * out.grad`
to the base's gradient on any arena in which the output node exists. -/
theorem pow_constant_exponent_contract (G : Graph) (i j : Nat) (n : ℤ)
    (H : Graph) (m : Nat) (hm : opAt H m = Op.powc i n) (hi : i < glen H) :
    vpow G i (PowArg.node j) = Except.error "only supports int/float powers" ∧
    vpow G i (PowArg.num n)
      = Except.ok (G ++ [⟨dataAt G i ^ n, 0, Op.powc i n⟩], glen G) ∧
    gradAt (runBack H m) i
      = gradAt H i + (n : ℝ) * dataAt H i ^ (n - 1) * gradAt H m := by
  refine ⟨rfl, rfl, ?_⟩
  unfold runBack
  rw [hm]
  exact gradAt_addGrad_self hi

/-! # Correctness of the depth-first topological sort (`build_topo`) -/

theorem reachable_trans {G : Graph} {a b x : Nat} (h1 : Reachable G a b)
    (h2 : Reachable G b x) : Reachable G a x := by
  induction h2 with
  | refl => exact h1
  | step _ hc ih => exact Reachable.step ih hc

theorem topoOK_closed {G : Graph} {t : List Nat} (h : TopoOK G t) :
    ∀ v ∈ t, ∀ c ∈ childList (opAt G v), c ∈ t := by
  induction h with
  | nil => intro v hv; simp at hv
  | snoc _ hch ih =>
      intro u hu c hc
      rcases List.mem_append.1 hu with hu | hu
      · exact List.mem_append_left _ (ih u hu c hc)
      · rw [List.mem_singleton.1 hu] at hc
        exact List.mem_append_left _ (hch c hc)

theorem topoOK_split {G : Graph} {t : List Nat} (h : TopoOK G t) :
    ∀ l₁ v l₂, t = l₁ ++ v :: l₂ → ∀ c ∈ childList (opAt G v), c ∈ l₁ := by
  induction h with
  | nil =>
      intro l₁ v l₂ he
      exact absurd he (by simp)
  | snoc _ hch ih =>
      intro l₁ v l₂ he c hc
      rcases List.eq_nil_or_concat l₂ with rfl | ⟨l₂', b, rfl⟩
      · obtain ⟨h1, h2⟩ := List.append_inj' he rfl
        obtain rfl : v = _ := by simpa using h2.symm
        rw [h1] at hch
        exact hch c hc
      · rw [List.concat_eq_append] at he
        have he2 : l₁ ++ v :: (l₂' ++ [b]) = (l₁ ++ v :: l₂') ++ [b] := by simp
        obtain ⟨h1, _⟩ := List.append_inj' (he.trans he2) rfl
        exact ih l₁ v l₂' h1 c hc

theorem enumOK_prevOf (G : Graph) : EnumOK G (prevOf G) := by
  intro v c
  simp [prevOf, List.mem_dedup]

theorem specL_of_specN {G : Graph} {e : Nat → List Nat} {f : Nat}
    (hN : SpecN G e f) : SpecL G e f := by
  intro cs
  induction cs with
  | nil =>
      intro s P _ hInv _
      have hs : dfsL G e f [] s = s := by simp [dfsL]
      rw [hs]
      exact ⟨hInv, by simp, ⟨[], List.append_nil _⟩, fun x hx => hx, fun x hx => Or.inl hx⟩
  | cons c cs ih =>
      intro s P hf hInv hP
      have hs : dfsL G e f (c :: cs) s = dfsL G e f cs (dfsN G e f c s) := by
        simp [dfsL]
      obtain ⟨hInv1, hpost1⟩ := hN c s P (hf c (by simp)) hInv (hP c (by simp))
      obtain ⟨hInv2, hpost2⟩ := ih (dfsN G e f c s) P
        (fun u hu => hf u (by simp [hu])) hInv1 (fun u hu => hP u (by simp [hu]))
      rw [hs]
      refine ⟨hInv2, ?_, hpost1.2.1.trans hpost2.2.1,
        fun x hx => hpost2.2.2.1 x (hpost1.2.2.1 x hx), ?_⟩
      · intro u hu
        rcases List.mem_cons.1 hu with rfl | hu
        · exact hpost2.2.2.1 u ((hInv1.1 u).2 (Or.inl hpost1.1))
        · exact hpost2.1 u hu
      · intro x hx
        rcases hpost2.2.2.2 x hx with hx1 | ⟨u, hu, hux⟩
        · rcases hpost1.2.2.2 x hx1 with h | h
          · exact Or.inl h
          · exact Or.inr ⟨c, by simp, h⟩
        · exact Or.inr ⟨u, by simp [hu], hux⟩

theorem specN_step {G : Graph} {e : Nat → List Nat} {f : Nat}
    (hWF : WF G) (hE : EnumOK G e) (hL : SpecL G e f) : SpecN G e (f + 1) := by
  intro i s P hi hInv hP
  by_cases hv : i ∈ s.1
  · have hs : dfsN G e (f + 1) i s = s := by simp [dfsN, hv]
    rw [hs]
    have hi2 : i ∈ s.2 := by
      rcases (hInv.1 i).1 hv with h | h
      · exact h
      · exact absurd (hP i h) (lt_irrefl i)
    exact ⟨hInv, hi2, ⟨[], List.append_nil _⟩, fun x hx => hx, fun x hx => Or.inl hx⟩
  · have hs : dfsN G e (f + 1) i s =
        ((dfsL G e f (e i) (i :: s.1, s.2)).1,
          (dfsL G e f (e i) (i :: s.1, s.2)).2 ++ [i]) := by
      simp [dfsN, hv]
    have hInv1 : DfsInv G (i :: P) (i :: s.1, s.2) := by
      refine ⟨?_, hInv.2.1, ?_, hInv.2.2.2⟩
      · intro x
        constructor
        · intro hx
          rcases List.mem_cons.1 hx with rfl | hx
          · exact Or.inr (by simp)
          · rcases (hInv.1 x).1 hx with h | h
            · exact Or.inl h
            · exact Or.inr (by simp [h])
        · intro hx
          rcases hx with h | h
          · exact List.mem_cons_of_mem _ ((hInv.1 x).2 (Or.inl h))
          · rcases List.mem_cons.1 h with rfl | h
            · exact List.mem_cons_self _ _
            · exact List.mem_cons_of_mem _ ((hInv.1 x).2 (Or.inr h))
      · intro x hx
        rcases List.mem_cons.1 hx with rfl | hx
        · intro hc
          exact hv ((hInv.1 x).2 (Or.inl hc))
        · exact hInv.2.2.1 x hx
    have hclt : ∀ c ∈ e i, c < i :=
      fun c hc => wf_children_lt hWF i c ((hE i c).1 hc)
    obtain ⟨hInv2, hpost2⟩ := hL (e i) (i :: s.1, s.2) (i :: P)
      (fun c hc => lt_of_lt_of_le (hclt c hc) (Nat.lt_succ_iff.1 hi))
      hInv1
      (by
        intro c hc x hx
        rcases List.mem_cons.1 hx with rfl | hx
        · exact hclt c hc
        · exact lt_trans (hclt c hc) (hP x hx))
    have hcs2 : ∀ c ∈ childList (opAt G i), c ∈ (dfsL G e f (e i) (i :: s.1, s.2)).2 := by
      intro c hc
      have hmem : c ∈ (dfsL G e f (e i) (i :: s.1, s.2)).1 :=
        hpost2.1 c ((hE i c).2 hc)
      have hci : c < i := wf_children_lt hWF i c hc
      rcases (hInv2.1 c).1 hmem with h | h
      · exact h
      · rcases List.mem_cons.1 h with rfl | h
        · omega
        · have := hP c h; omega
    rw [hs]
    have hiT : i ∉ (dfsL G e f (e i) (i :: s.1, s.2)).2 :=
      hInv2.2.2.1 i (by simp)
    refine ⟨⟨?_, ?_, ?_, TopoOK.snoc hInv2.2.2.2 hcs2⟩, ?_, ?_, ?_, ?_⟩
    · intro x
      have h1 := hInv2.1 x
      simp only [List.mem_cons] at h1
      simp only [List.mem_append, List.mem_singleton]
      constructor
      · intro hx
        rcases h1.1 hx with h | h | h
        · exact Or.inl (Or.inl h)
        · exact Or.inl (Or.inr h)
        · exact Or.inr h
      · intro hx
        rcases hx with h | h
        · rcases h with h | h
          · exact h1.2 (Or.inl h)
          · exact h1.2 (Or.inr (Or.inl h))
        · exact h1.2 (Or.inr (Or.inr h))
    · rw [List.nodup_append]
      exact ⟨hInv2.2.1, by simp, by
        intro a ha hb
        rw [List.mem_singleton.1 hb] at ha
        exact hiT ha⟩
    · intro x hx
      rw [List.mem_append]
      rintro (h | h)
      · exact hInv2.2.2.1 x (by simp [hx]) h
      · rw [List.mem_singleton.1 h] at hx
        exact absurd (hP _ hx) (lt_irrefl i)
    · simp
    · exact List.IsPrefix.trans hpost2.2.1 (by simp)
    · intro x hx
      exact hpost2.2.2.1 x (List.mem_cons_of_mem _ hx)
    · intro x hx
      rcases hpost2.2.2.2 x hx with hx1 | ⟨c, hc, hcx⟩
      · rcases List.mem_cons.1 hx1 with rfl | h
        · exact Or.inr Reachable.refl
        · exact Or.inl h
      · exact Or.inr (reachable_trans
          (Reachable.step Reachable.refl ((hE i c).1 hc)) hcx)

theorem dfs_spec {G : Graph} {e : Nat → List Nat} (hWF : WF G)
    (hE : EnumOK G e) : ∀ f, SpecN G e f := by
  intro f
  induction f with
  | zero => intro i s P hi _ _; exact absurd hi (Nat.not_lt_zero i)
  | succ f ih => exact specN_step hWF hE (specL_of_specN ih)

theorem buildTopoWith_spec {G : Graph} {e : Nat → List Nat} (root : Nat)
    (hWF : WF G) (hE : EnumOK G e) :
    (buildTopoWith e G root).Nodup ∧ TopoOK G (buildTopoWith e G root) ∧
    ∀ x, x ∈ buildTopoWith e G root ↔ Reachable G root x := by
  have hInv0 : DfsInv G [] ([], []) := ⟨by simp, by simp, by simp, TopoOK.nil⟩
  obtain ⟨hInv, hpost⟩ := dfs_spec hWF hE (root + 1) root ([], []) []
    (Nat.lt_succ_self root) hInv0 (by simp)
  refine ⟨hInv.2.1, hInv.2.2.2, fun x => ⟨?_, ?_⟩⟩
  · intro hx
    have hx1 : x ∈ (dfsN G e (root + 1) root ([], [])).1 :=
      (hInv.1 x).2 (Or.inl hx)
    rcases hpost.2.2.2 x hx1 with h | h
    · simp at h
    · exact h
  · intro hx
    induction hx with
    | refl => exact hpost.1
    | step _ hc ihv => exact topoOK_closed hInv.2.2.2 _ ihv _ hc

/-- C3: the topological ordering computed inside `backward()` by the
depth-first `build_topo` traversal contains each node reachable from the root
exactly once (no duplicates — visited-set membership is node identity, i.e.
arena index, so distinct nodes with equal values are tracked separately), and
places every operand strictly before every node that consumes it: if the
ordering splits as `l₁ ++ v :: l₂`, all operands of `v` lie in `l₁`. -/
theorem build_topo_is_topological_order (G : Graph) (root : Nat) (hWF : WF G) :
    (buildTopo G root).Nodup ∧
    (∀ x, x ∈ buildTopo G root ↔ Reachable G root x) ∧
    (∀ l₁ v l₂, buildTopo G root = l₁ ++ v :: l₂ →
      ∀ c ∈ childList (opAt G v), c ∈ l₁) := by
  obtain ⟨h1, h2, h3⟩ :=
    buildTopoWith_spec root hWF (enumOK_prevOf G)
  exact ⟨h1, h3, fun l₁ v l₂ he => topoOK_split h2 l₁ v l₂ he⟩

theorem build_topo_is_topological_order_witness :
    WF [⟨(5 : ℝ), 0, Op.leaf⟩, ⟨5, 0, Op.leaf⟩, ⟨10, 0, Op.add 0 1⟩] ∧
    ((buildTopo [⟨(5 : ℝ), 0, Op.leaf⟩, ⟨5, 0, Op.leaf⟩, ⟨10, 0, Op.add 0 1⟩] 2).Nodup ∧
      (∀ x, x ∈ buildTopo [⟨(5 : ℝ), 0, Op.leaf⟩, ⟨5, 0, Op.leaf⟩, ⟨10, 0, Op.add 0 1⟩] 2 ↔
        Reachable [⟨(5 : ℝ), 0, Op.leaf⟩, ⟨5, 0, Op.leaf⟩, ⟨10, 0, Op.add 0 1⟩] 2 x) ∧
      (∀ l₁ v l₂,
        buildTopo [⟨(5 : ℝ), 0, Op.leaf⟩, ⟨5, 0, Op.leaf⟩, ⟨10, 0, Op.add 0 1⟩] 2 =
          l₁ ++ v :: l₂ →
        ∀ c ∈ childList
          (opAt [⟨(5 : ℝ), 0, Op.leaf⟩, ⟨5, 0, Op.leaf⟩, ⟨10, 0, Op.add 0 1⟩] v), c ∈ l₁)) :=
  ⟨by decide,
    build_topo_is_topological_order
      [⟨(5 : ℝ), 0, Op.leaf⟩, ⟨5, 0, Op.leaf⟩, ⟨10, 0, Op.add 0 1⟩] 2 (by decide)⟩

/-! # The reverse sweep on the gradient map -/

theorem lt_glen_of_opAt {G : Graph} {w : Nat} {o : Op} (h : opAt G w = o)
    (ho : o ≠ Op.leaf) : w < glen G := by
  by_contra hge
  rw [opAt_ge (Nat.le_of_not_lt hge)] at h
  exact ho h.symm

theorem procValid_nodup {G : Graph} {p : List Nat} (h : ProcValid G p) :
    p.Nodup := by
  induction h with
  | nil => exact List.nodup_nil
  | cons _ _ hnm _ ih => exact List.nodup_cons.2 ⟨hnm, ih⟩

theorem procValid_reverse {G : Graph} {t : List Nat} (h : TopoOK G t)
    (hnd : t.Nodup) : ProcValid G t.reverse := by
  induction h with
  | nil => simpa using ProcValid.nil
  | @snoc t v ht hch ih =>
      rw [List.nodup_append] at hnd
      have hvt : v ∉ t := by
        intro hv
        exact hnd.2.2 hv (by simp)
      have hrw : (t ++ [v]).reverse = v :: t.reverse := by simp
      rw [hrw]
      refine ProcValid.cons ?_ ?_ ?_ (ih hnd.1)
      · intro c hc
        exact List.mem_reverse.2 (hch c hc)
      · intro u hu hvc
        exact hvt (topoOK_closed ht u (List.mem_reverse.1 hu) v hvc)
      · intro hv
        exact hvt (List.mem_reverse.1 hv)

theorem foldl_update_add (L : List (Nat × ℝ)) (h : Nat → ℝ) (x : ℝ) (v : Nat) :
    (L.foldl (fun h ck => Function.update h ck.1 (h ck.1 + ck.2 * x)) h) v
      = h v + (L.map fun ck => if ck.1 = v then ck.2 else 0).sum * x := by
  induction L generalizing h with
  | nil => simp
  | cons ck L ih =>
      rw [List.foldl_cons, ih, List.map_cons, List.sum_cons]
      rcases eq_or_ne ck.1 v with hEq | hne
      · rw [hEq, Function.update_same, if_pos rfl]
        ring
      · rw [Function.update_noteq (Ne.symm hne), if_neg hne]
        ring

theorem stepF_apply (G : Graph) (w : Nat) (g : Nat → ℝ) (v : Nat) :
    stepF G w g v = g v + coeff G w v * g w := by
  unfold stepF coeff
  exact foldl_update_add (contribs G w) g (g w) v

theorem contribs_fst {G : Graph} {w : Nat} :
    ∀ ck ∈ contribs G w, ck.1 ∈ childList (opAt G w) := by
  intro ck hck
  cases hop : opAt G w with
  | leaf => simp [contribs, hop] at hck
  | add a b =>
      simp [contribs, hop] at hck
      rcases hck with rfl | rfl <;> simp [hop, childList]
  | mul a b =>
      simp [contribs, hop] at hck
      rcases hck with rfl | rfl <;> simp [hop, childList]
  | powc a n =>
      simp [contribs, hop] at hck
      rw [hck]
      simp [hop, childList]
  | tanh a =>
      simp [contribs, hop] at hck
      rw [hck]
      simp [hop, childList]
  | relu a =>
      simp [contribs, hop] at hck
      rw [hck]
      simp [hop, childList]
  | exp a =>
      simp [contribs, hop] at hck
      rw [hck]
      simp [hop, childList]

theorem coeff_eq_zero {G : Graph} {w v : Nat}
    (h : v ∉ childList (opAt G w)) : coeff G w v = 0 := by
  unfold coeff
  apply List.sum_eq_zero
  intro x hx
  rcases List.mem_map.1 hx with ⟨ck, hck, rfl⟩
  have hmem := contribs_fst ck hck
  have hne : ¬ck.1 = v := fun hEq => h (hEq ▸ hmem)
  simp [hne]

theorem stepF_untouched {G : Graph} {w v : Nat} {g : Nat → ℝ}
    (h : v ∉ childList (opAt G w)) : stepF G w g v = g v := by
  rw [stepF_apply, coeff_eq_zero h]
  ring

theorem sweepF_untouched {G : Graph} {p : List Nat} {v : Nat} {g : Nat → ℝ}
    (h : ∀ u ∈ p, v ∉ childList (opAt G u)) : sweepF G p g v = g v := by
  induction p generalizing g with
  | nil => rfl
  | cons w t ih =>
      have h1 : sweepF G (w :: t) g v = sweepF G t (stepF G w g) v := rfl
      rw [h1, ih (fun u hu => h u (by simp [hu])),
        stepF_untouched (h w (by simp))]

theorem sweepF_recurrence {G : Graph} {p : List Nat} (hp : ProcValid G p)
    (g : Nat → ℝ) (v : Nat) :
    sweepF G p g v = g v + (p.map fun w => coeff G w v * sweepF G p g w).sum := by
  induction hp generalizing g with
  | nil => simp [sweepF]
  | @cons w rest hch hcons hnm hpv ih =>
      have hww : w ∉ childList (opAt G w) := fun hin => hnm (hch w hin)
      have hstep : ∀ u, sweepF G (w :: rest) g u = sweepF G rest (stepF G w g) u :=
        fun u => rfl
      have h1 : sweepF G (w :: rest) g w = g w := by
        rw [hstep, sweepF_untouched (fun u hu => hcons u hu), stepF_untouched hww]
      calc sweepF G (w :: rest) g v
          = stepF G w g v
            + (rest.map fun u => coeff G u v * sweepF G rest (stepF G w g) u).sum :=
            ih (stepF G w g)
        _ = g v + coeff G w v * g w
            + (rest.map fun u => coeff G u v * sweepF G (w :: rest) g u).sum := by
            rw [stepF_apply]
            rfl
        _ = g v + ((w :: rest).map fun u => coeff G u v * sweepF G (w :: rest) g u).sum := by
            rw [List.map_cons, List.sum_cons, h1]
            ring

/-! # Simulation: `runBack` acts on the gradient map as `stepF` -/

theorem WF_runBack {G : Graph} {w : Nat} (hWF : WF G) : WF (runBack G w) := by
  intro v hv c hc
  rw [opAt_runBack] at hc
  rw [glen_runBack] at hv
  exact hWF v hv c hc

theorem WF_setGrad {G : Graph} {i : Nat} {x : ℝ} (hWF : WF G) :
    WF (setGrad G i x) := by
  intro v hv c hc
  rw [opAt_setGrad] at hc
  rw [glen_setGrad] at hv
  exact hWF v hv c hc

theorem contribs_runBack {G : Graph} {u w : Nat} :
    contribs (runBack G u) w = contribs G w := by
  cases hop : opAt G w <;>
    simp [contribs, opAt_runBack, dataAt_runBack, hop]

theorem contribs_setGrad {G : Graph} {i w : Nat} {x : ℝ} :
    contribs (setGrad G i x) w = contribs G w := by
  cases hop : opAt G w <;>
    simp [contribs, opAt_setGrad, dataAt_setGrad, hop]

theorem sweepF_congr {G' G : Graph} (h : ∀ u, contribs G' u = contribs G u) :
    ∀ (p : List Nat) (g : Nat → ℝ), sweepF G' p g = sweepF G p g := by
  intro p
  induction p with
  | nil => intro g; rfl
  | cons w t ih =>
      intro g
      have hstep : stepF G' w g = stepF G w g := by unfold stepF; rw [h w]
      show sweepF G' t (stepF G' w g) = sweepF G t (stepF G w g)
      rw [hstep, ih]

theorem gradsOf_runBack {G : Graph} {w : Nat} (hWF : WF G) :
    gradsOf (runBack G w) = stepF G w (gradsOf G) := by
  funext v
  rw [stepF_apply]
  show gradAt (runBack G w) v = gradAt G v + coeff G w v * gradAt G w
  cases hop : opAt G w with
  | leaf =>
      have hG : runBack G w = G := by unfold runBack; rw [hop]
      rw [hG]
      simp [coeff, contribs, hop]
  | add a b =>
      have hw : w < glen G := lt_glen_of_opAt hop (by simp)
      have ha : a < w := hWF w hw a (by rw [hop]; simp [childList])
      have hb : b < w := hWF w hw b (by rw [hop]; simp [childList])
      have hrb : runBack G w
          = addGrad (addGrad G a (gradAt G w)) b
              (gradAt (addGrad G a (gradAt G w)) w) := by
        unfold runBack; rw [hop]
      have hgw1 : gradAt (addGrad G a (gradAt G w)) w = gradAt G w :=
        gradAt_addGrad_ne (by omega)
      have hco : coeff G w v
          = (if a = v then (1 : ℝ) else 0) + (if b = v then (1 : ℝ) else 0) := by
        simp [coeff, contribs, hop]
      rw [hrb, hgw1, hco]
      by_cases hva : v = a
      · subst hva
        by_cases hvb : v = b
        · rw [← hvb, gradAt_addGrad_self (by rw [glen_addGrad]; omega),
            gradAt_addGrad_self (by omega), if_pos rfl]
          ring
        · rw [gradAt_addGrad_ne hvb, gradAt_addGrad_self (by omega),
            if_pos rfl, if_neg (Ne.symm hvb)]
          ring
      · by_cases hvb : v = b
        · subst hvb
          rw [gradAt_addGrad_self (by rw [glen_addGrad]; omega),
            gradAt_addGrad_ne hva, if_neg (Ne.symm hva), if_pos rfl]
          ring
        · rw [gradAt_addGrad_ne hvb, gradAt_addGrad_ne hva,
            if_neg (Ne.symm hva), if_neg (Ne.symm hvb)]
          ring
  | mul a b =>
      have hw : w < glen G := lt_glen_of_opAt hop (by simp)
      have ha : a < w := hWF w hw a (by rw [hop]; simp [childList])
      have hb : b < w := hWF w hw b (by rw [hop]; simp [childList])
      have hrb : runBack G w
          = addGrad (addGrad G a (dataAt G b * gradAt G w)) b
              (dataAt (addGrad G a (dataAt G b * gradAt G w)) a *
                gradAt (addGrad G a (dataAt G b * gradAt G w)) w) := by
        unfold runBack; rw [hop]
      have hgw1 : gradAt (addGrad G a (dataAt G b * gradAt G w)) w = gradAt G w :=
        gradAt_addGrad_ne (by omega)
      have hda : dataAt (addGrad G a (dataAt G b * gradAt G w)) a = dataAt G a :=
        dataAt_addGrad
      have hco : coeff G w v
          = (if a = v then dataAt G b else 0) + (if b = v then dataAt G a else 0) := by
        simp [coeff, contribs, hop]
      rw [hrb, hgw1, hda, hco]
      by_cases hva : v = a
      · subst hva
        by_cases hvb : v = b
        · rw [← hvb, gradAt_addGrad_self (by rw [glen_addGrad]; omega),
            gradAt_addGrad_self (by omega), if_pos rfl]
          ring
        · rw [gradAt_addGrad_ne hvb, gradAt_addGrad_self (by omega),
            if_pos rfl, if_neg (Ne.symm hvb)]
          ring
      · by_cases hvb : v = b
        · subst hvb
          rw [gradAt_addGrad_self (by rw [glen_addGrad]; omega),
            gradAt_addGrad_ne hva, if_neg (Ne.symm hva), if_pos rfl]
          ring
        · rw [gradAt_addGrad_ne hvb, gradAt_addGrad_ne hva,
            if_neg (Ne.symm hva), if_neg (Ne.symm hvb)]
          ring
  | powc a n =>
      have hw : w < glen G := lt_glen_of_opAt hop (by simp)
      have ha : a < w := hWF w hw a (by rw [hop]; simp [childList])
      have hrb : runBack G w
          = addGrad G a ((n : ℝ) * dataAt G a ^ (n - 1) * gradAt G w) := by
        unfold runBack; rw [hop]
      have hco : coeff G w v
          = if a = v then (n : ℝ) * dataAt G a ^ (n - 1) else 0 := by
        simp [coeff, contribs, hop]
      rw [hrb, hco]
      by_cases hva : v = a
      · subst hva
        rw [gradAt_addGrad_self (by omega), if_pos rfl]
      · rw [gradAt_addGrad_ne hva, if_neg (Ne.symm hva)]
        ring
  | tanh a =>
      have hw : w < glen G := lt_glen_of_opAt hop (by simp)
      have ha : a < w := hWF w hw a (by rw [hop]; simp [childList])
      have hrb : runBack G w
          = addGrad G a ((1 - dataAt G w ^ 2) * gradAt G w) := by
        unfold runBack; rw [hop]
      have hco : coeff G w v = if a = v then 1 - dataAt G w ^ 2 else 0 := by
        simp [coeff, contribs, hop]
      rw [hrb, hco]
      by_cases hva : v = a
      · subst hva
        rw [gradAt_addGrad_self (by omega), if_pos rfl]
      · rw [gradAt_addGrad_ne hva, if_neg (Ne.symm hva)]
        ring
  | relu a =>
      have hw : w < glen G := lt_glen_of_opAt hop (by simp)
      have ha : a < w := hWF w hw a (by rw [hop]; simp [childList])
      have hrb : runBack G w
          = addGrad G a ((if 0 < dataAt G w then 1 else 0) * gradAt G w) := by
        unfold runBack; rw [hop]
      have hco : coeff G w v
          = if a = v then (if 0 < dataAt G w then (1 : ℝ) else 0) else 0 := by
        simp [coeff, contribs, hop]
      rw [hrb, hco]
      by_cases hva : v = a
      · subst hva
        rw [gradAt_addGrad_self (by omega), if_pos rfl]
      · rw [gradAt_addGrad_ne hva, if_neg (Ne.symm hva)]
        ring
  | exp a =>
      have hw : w < glen G := lt_glen_of_opAt hop (by simp)
      have ha : a < w := hWF w hw a (by rw [hop]; simp [childList])
      have hrb : runBack G w
          = addGrad G a (dataAt G w * gradAt G w) := by
        unfold runBack; rw [hop]
      have hco : coeff G w v = if a = v then dataAt G w else 0 := by
        simp [coeff, contribs, hop]
      rw [hrb, hco]
      by_cases hva : v = a
      · subst hva
        rw [gradAt_addGrad_self (by omega), if_pos rfl]
      · rw [gradAt_addGrad_ne hva, if_neg (Ne.symm hva)]
        ring

theorem gradsOf_foldl_runBack {p : List Nat} {G : Graph} (hWF : WF G) :
    gradsOf (p.foldl runBack G) = sweepF G p (gradsOf G) := by
  induction p generalizing G with
  | nil => rfl
  | cons w t ih =>
      have h1 : (w :: t).foldl runBack G = t.foldl runBack (runBack G w) := rfl
      rw [h1, ih (WF_runBack hWF)]
      show sweepF (runBack G w) t (gradsOf (runBack G w)) = sweepF G (w :: t) (gradsOf G)
      rw [sweepF_congr (fun u => contribs_runBack) t, gradsOf_runBack hWF]
      rfl

theorem gradsOf_setGrad {G : Graph} {root : Nat} {x : ℝ} (h : root < glen G) :
    gradsOf (setGrad G root x) = Function.update (gradsOf G) root x := by
  funext v
  rcases eq_or_ne v root with rfl | hne
  · rw [Function.update_same]
    exact gradAt_setGrad_self h
  · rw [Function.update_noteq hne]
    exact gradAt_setGrad_ne hne

theorem gradsOf_backwardWith {G : Graph} {e : Nat → List Nat} {root : Nat}
    (hWF : WF G) (hroot : root < glen G) :
    gradsOf (backwardWith e G root)
      = sweepF G (buildTopoWith e G root).reverse
          (Function.update (gradsOf G) root 1) := by
  unfold backwardWith
  rw [gradsOf_foldl_runBack (WF_setGrad hWF),
    sweepF_congr (fun u => contribs_setGrad) _, gradsOf_setGrad hroot]

theorem gradsOf_backward {G : Graph} {root : Nat} (hWF : WF G)
    (hroot : root < glen G) :
    gradsOf (backward G root)
      = sweepF G (buildTopo G root).reverse (Function.update (gradsOf G) root 1) := by
  unfold backward buildTopo
  exact gradsOf_backwardWith hWF hroot

theorem reachable_le {G : Graph} {root x : Nat} (hWF : WF G)
    (h : Reachable G root x) : x ≤ root := by
  induction h with
  | refl => exact le_rfl
  | @step v c _ hc ih => exact le_of_lt (lt_of_lt_of_le (wf_children_lt hWF v c hc) ih)

/-- C4: gradients only accumulate.  With `ĝ` the entry gradients after the
single seed assignment `root.grad = 1.0`, the final gradient of every node
`v` is `ĝ v` plus the sum, over the nodes `w` of the topological order, of
`w`'s local-derivative coefficient towards `v` times `w`'s own final gradient
— every write of the sweep is an addition of such a consumer contribution.
The root itself ends at exactly `1`, and if all gradients are zero at entry
then every non-root node's final gradient is exactly the sum of the
contributions of its consumers. -/
theorem backward_additive_accumulation (G : Graph) (root : Nat)
    (hWF : WF G) (hroot : root < glen G) :
    (∀ v, gradAt (backward G root) v
        = Function.update (gradsOf G) root 1 v
          + ((buildTopo G root).map
              fun w => coeff G w v * gradAt (backward G root) w).sum) ∧
    gradAt (backward G root) root = 1 ∧
    ((∀ u, gradAt G u = 0) → ∀ v, v ≠ root →
      gradAt (backward G root) v
        = ((buildTopo G root).map
            fun w => coeff G w v * gradAt (backward G root) w).sum) := by
  obtain ⟨hnd, htopo, hmem⟩ :=
    buildTopoWith_spec root hWF (enumOK_prevOf G)
  have hPV : ProcValid G (buildTopo G root).reverse := procValid_reverse htopo hnd
  have hsim : gradsOf (backward G root)
      = sweepF G (buildTopo G root).reverse (Function.update (gradsOf G) root 1) :=
    gradsOf_backwardWith hWF hroot
  have hpt : ∀ u, sweepF G (buildTopo G root).reverse
      (Function.update (gradsOf G) root 1) u = gradAt (backward G root) u := by
    intro u
    rw [← hsim]
    rfl
  have hrec : ∀ v, gradAt (backward G root) v
      = Function.update (gradsOf G) root 1 v
        + ((buildTopo G root).map
            fun w => coeff G w v * gradAt (backward G root) w).sum := by
    intro v
    have h0 := sweepF_recurrence hPV (Function.update (gradsOf G) root 1) v
    rw [hpt v] at h0
    have hfa : ((buildTopo G root).reverse.map
        fun w => coeff G w v * sweepF G (buildTopo G root).reverse
          (Function.update (gradsOf G) root 1) w)
        = (buildTopo G root).reverse.map
            fun w => coeff G w v * gradAt (backward G root) w := by
      apply List.map_congr_left
      intro w _
      rw [hpt w]
    rw [hfa] at h0
    rw [h0, List.map_reverse, List.sum_reverse]
  refine ⟨hrec, ?_, ?_⟩
  · have h0 := hrec root
    have hz : ((buildTopo G root).map
        fun w => coeff G w root * gradAt (backward G root) w).sum = 0 := by
      apply List.sum_eq_zero
      intro x hx
      rcases List.mem_map.1 hx with ⟨w, hw, rfl⟩
      have hwle : w ≤ root := reachable_le hWF ((hmem w).1 hw)
      have hnc : root ∉ childList (opAt G w) := by
        intro hmem'
        have := wf_children_lt hWF w root hmem'
        omega
      rw [coeff_eq_zero hnc]
      ring
    rw [h0, hz, Function.update_same]
    ring
  · intro hzero v hv
    have h0 := hrec v
    rw [Function.update_noteq hv] at h0
    have hgz : gradsOf G v = 0 := hzero v
    rw [h0, hgz, zero_add]

/-! # Recomputation semantics: fuel irrelevance and data consistency -/

theorem evalN_fuel {G : Graph} {xs : Nat → ℝ} (hWF : WF G) :
    ∀ v f1 f2, v < f1 → v < f2 → evalN G xs f1 v = evalN G xs f2 v := by
  intro v
  induction v using Nat.strong_induction_on with
  | _ v ih =>
      intro f1 f2 h1 h2
      obtain ⟨k1, rfl⟩ : ∃ k, f1 = k + 1 := ⟨f1 - 1, by omega⟩
      obtain ⟨k2, rfl⟩ : ∃ k, f2 = k + 1 := ⟨f2 - 1, by omega⟩
      cases hop : opAt G v with
      | leaf => simp [evalN, hop]
      | add a b =>
          have ha : a < v := wf_children_lt hWF v a (by rw [hop]; simp [childList])
          have hb : b < v := wf_children_lt hWF v b (by rw [hop]; simp [childList])
          simp only [evalN, hop]
          rw [ih a ha k1 k2 (by omega) (by omega), ih b hb k1 k2 (by omega) (by omega)]
      | mul a b =>
          have ha : a < v := wf_children_lt hWF v a (by rw [hop]; simp [childList])
          have hb : b < v := wf_children_lt hWF v b (by rw [hop]; simp [childList])
          simp only [evalN, hop]
          rw [ih a ha k1 k2 (by omega) (by omega), ih b hb k1 k2 (by omega) (by omega)]
      | powc a n =>
          have ha : a < v := wf_children_lt hWF v a (by rw [hop]; simp [childList])
          simp only [evalN, hop]
          rw [ih a ha k1 k2 (by omega) (by omega)]
      | tanh a =>
          have ha : a < v := wf_children_lt hWF v a (by rw [hop]; simp [childList])
          simp only [evalN, hop]
          rw [ih a ha k1 k2 (by omega) (by omega)]
      | relu a =>
          have ha : a < v := wf_children_lt hWF v a (by rw [hop]; simp [childList])
          simp only [evalN, hop]
          rw [ih a ha k1 k2 (by omega) (by omega)]
      | exp a =>
          have ha : a < v := wf_children_lt hWF v a (by rw [hop]; simp [childList])
          simp only [evalN, hop]
          rw [ih a ha k1 k2 (by omega) (by omega)]

theorem dN_fuel {G : Graph} {ℓ : Nat} (hWF : WF G) :
    ∀ v f1 f2, v < f1 → v < f2 → dN G ℓ f1 v = dN G ℓ f2 v := by
  intro v
  induction v using Nat.strong_induction_on with
  | _ v ih =>
      intro f1 f2 h1 h2
      obtain ⟨k1, rfl⟩ : ∃ k, f1 = k + 1 := ⟨f1 - 1, by omega⟩
      obtain ⟨k2, rfl⟩ : ∃ k, f2 = k + 1 := ⟨f2 - 1, by omega⟩
      cases hop : opAt G v with
      | leaf => simp [dN, hop]
      | add a b =>
          have ha : a < v := wf_children_lt hWF v a (by rw [hop]; simp [childList])
          have hb : b < v := wf_children_lt hWF v b (by rw [hop]; simp [childList])
          simp only [dN, hop]
          rw [ih a ha k1 k2 (by omega) (by omega), ih b hb k1 k2 (by omega) (by omega)]
      | mul a b =>
          have ha : a < v := wf_children_lt hWF v a (by rw [hop]; simp [childList])
          have hb : b < v := wf_children_lt hWF v b (by rw [hop]; simp [childList])
          simp only [dN, hop]
          rw [ih a ha k1 k2 (by omega) (by omega), ih b hb k1 k2 (by omega) (by omega)]
      | powc a n =>
          have ha : a < v := wf_children_lt hWF v a (by rw [hop]; simp [childList])
          simp only [dN, hop]
          rw [ih a ha k1 k2 (by omega) (by omega)]
      | tanh a =>
          have ha : a < v := wf_children_lt hWF v a (by rw [hop]; simp [childList])
          simp only [dN, hop]
          rw [ih a ha k1 k2 (by omega) (by omega)]
      | relu a =>
          have ha : a < v := wf_children_lt hWF v a (by rw [hop]; simp [childList])
          simp only [dN, hop]
          rw [ih a ha k1 k2 (by omega) (by omega)]
      | exp a =>
          have ha : a < v := wf_children_lt hWF v a (by rw [hop]; simp [childList])
          simp only [dN, hop]
          rw [ih a ha k1 k2 (by omega) (by omega)]

theorem evalNode_data {G : Graph} (hWF : WF G) (hD : DataOK G) :
    ∀ v, evalNode G (fun i => dataAt G i) v = dataAt G v := by
  intro v
  induction v using Nat.strong_induction_on with
  | _ v ih =>
      by_cases hv : v < glen G
      · have hL := hD v hv
        unfold LocalOK at hL
        cases hop : opAt G v with
        | leaf => simp [evalNode, evalN, hop]
        | add a b =>
            simp only [hop] at hL
            have ha : a < v := wf_children_lt hWF v a (by rw [hop]; simp [childList])
            have hb : b < v := wf_children_lt hWF v b (by rw [hop]; simp [childList])
            show evalN G (fun i => dataAt G i) (v + 1) v = dataAt G v
            simp only [evalN, hop]
            rw [evalN_fuel hWF a v (a + 1) ha (Nat.lt_succ_self a),
              evalN_fuel hWF b v (b + 1) hb (Nat.lt_succ_self b)]
            show evalNode G (fun i => dataAt G i) a + evalNode G (fun i => dataAt G i) b
                = dataAt G v
            rw [ih a ha, ih b hb]
            exact hL.symm
        | mul a b =>
            simp only [hop] at hL
            have ha : a < v := wf_children_lt hWF v a (by rw [hop]; simp [childList])
            have hb : b < v := wf_children_lt hWF v b (by rw [hop]; simp [childList])
            show evalN G (fun i => dataAt G i) (v + 1) v = dataAt G v
            simp only [evalN, hop]
            rw [evalN_fuel hWF a v (a + 1) ha (Nat.lt_succ_self a),
              evalN_fuel hWF b v (b + 1) hb (Nat.lt_succ_self b)]
            show evalNode G (fun i => dataAt G i) a * evalNode G (fun i => dataAt G i) b
                = dataAt G v
            rw [ih a ha, ih b hb]
            exact hL.symm
        | powc a n =>
            simp only [hop] at hL
            have ha : a < v := wf_children_lt hWF v a (by rw [hop]; simp [childList])
            show evalN G (fun i => dataAt G i) (v + 1) v = dataAt G v
            simp only [evalN, hop]
            rw [evalN_fuel hWF a v (a + 1) ha (Nat.lt_succ_self a)]
            show evalNode G (fun i => dataAt G i) a ^ n = dataAt G v
            rw [ih a ha]
            exact hL.symm
        | tanh a =>
            simp only [hop] at hL
            have ha : a < v := wf_children_lt hWF v a (by rw [hop]; simp [childList])
            show evalN G (fun i => dataAt G i) (v + 1) v = dataAt G v
            simp only [evalN, hop]
            rw [evalN_fuel hWF a v (a + 1) ha (Nat.lt_succ_self a)]
            show (Real.exp (2 * evalNode G (fun i => dataAt G i) a) - 1)
                / (Real.exp (2 * evalNode G (fun i => dataAt G i) a) + 1) = dataAt G v
            rw [ih a ha]
            exact hL.symm
        | relu a =>
            simp only [hop] at hL
            have ha : a < v := wf_children_lt hWF v a (by rw [hop]; simp [childList])
            show evalN G (fun i => dataAt G i) (v + 1) v = dataAt G v
            simp only [evalN, hop]
            rw [evalN_fuel hWF a v (a + 1) ha (Nat.lt_succ_self a)]
            show (if evalNode G (fun i => dataAt G i) a < 0 then 0
                else evalNode G (fun i => dataAt G i) a) = dataAt G v
            rw [ih a ha]
            exact hL.symm
        | exp a =>
            simp only [hop] at hL
            have ha : a < v := wf_children_lt hWF v a (by rw [hop]; simp [childList])
            show evalN G (fun i => dataAt G i) (v + 1) v = dataAt G v
            simp only [evalN, hop]
            rw [evalN_fuel hWF a v (a + 1) ha (Nat.lt_succ_self a)]
            show Real.exp (evalNode G (fun i => dataAt G i) a) = dataAt G v
            rw [ih a ha]
            exact hL.symm
      · have hleaf := opAt_ge (Nat.le_of_not_lt hv)
        simp [evalNode, evalN, hleaf]

theorem dFwd_chain {G : Graph} {ℓ w : Nat} (hWF : WF G)
    (hnl : opAt G w ≠ Op.leaf) :
    dFwd G ℓ w = ((contribs G w).map fun ck => ck.2 * dFwd G ℓ ck.1).sum := by
  cases hop : opAt G w with
  | leaf => exact absurd hop hnl
  | add a b =>
      have ha : a < w := wf_children_lt hWF w a (by rw [hop]; simp [childList])
      have hb : b < w := wf_children_lt hWF w b (by rw [hop]; simp [childList])
      show dN G ℓ (w + 1) w = _
      simp only [dN, hop, contribs, List.map_cons, List.map_nil, List.sum_cons,
        List.sum_nil]
      rw [dN_fuel hWF a w (a + 1) ha (Nat.lt_succ_self a),
        dN_fuel hWF b w (b + 1) hb (Nat.lt_succ_self b)]
      show dFwd G ℓ a + dFwd G ℓ b = 1 * dFwd G ℓ a + (1 * dFwd G ℓ b + 0)
      ring
  | mul a b =>
      have ha : a < w := wf_children_lt hWF w a (by rw [hop]; simp [childList])
      have hb : b < w := wf_children_lt hWF w b (by rw [hop]; simp [childList])
      show dN G ℓ (w + 1) w = _
      simp only [dN, hop, contribs, List.map_cons, List.map_nil, List.sum_cons,
        List.sum_nil]
      rw [dN_fuel hWF a w (a + 1) ha (Nat.lt_succ_self a),
        dN_fuel hWF b w (b + 1) hb (Nat.lt_succ_self b)]
      show dataAt G b * dFwd G ℓ a + dataAt G a * dFwd G ℓ b
          = dataAt G b * dFwd G ℓ a + (dataAt G a * dFwd G ℓ b + 0)
      ring
  | powc a n =>
      have ha : a < w := wf_children_lt hWF w a (by rw [hop]; simp [childList])
      show dN G ℓ (w + 1) w = _
      simp only [dN, hop, contribs, List.map_cons, List.map_nil, List.sum_cons,
        List.sum_nil]
      rw [dN_fuel hWF a w (a + 1) ha (Nat.lt_succ_self a)]
      show (n : ℝ) * dataAt G a ^ (n - 1) * dFwd G ℓ a
          = (n : ℝ) * dataAt G a ^ (n - 1) * dFwd G ℓ a + 0
      ring
  | tanh a =>
      have ha : a < w := wf_children_lt hWF w a (by rw [hop]; simp [childList])
      show dN G ℓ (w + 1) w = _
      simp only [dN, hop, contribs, List.map_cons, List.map_nil, List.sum_cons,
        List.sum_nil]
      rw [dN_fuel hWF a w (a + 1) ha (Nat.lt_succ_self a)]
      show (1 - dataAt G w ^ 2) * dFwd G ℓ a = (1 - dataAt G w ^ 2) * dFwd G ℓ a + 0
      ring
  | relu a =>
      have ha : a < w := wf_children_lt hWF w a (by rw [hop]; simp [childList])
      show dN G ℓ (w + 1) w = _
      simp only [dN, hop, contribs, List.map_cons, List.map_nil, List.sum_cons,
        List.sum_nil]
      rw [dN_fuel hWF a w (a + 1) ha (Nat.lt_succ_self a)]
      show (if 0 < dataAt G w then (1 : ℝ) else 0) * dFwd G ℓ a
          = (if 0 < dataAt G w then (1 : ℝ) else 0) * dFwd G ℓ a + 0
      ring
  | exp a =>
      have ha : a < w := wf_children_lt hWF w a (by rw [hop]; simp [childList])
      show dN G ℓ (w + 1) w = _
      simp only [dN, hop, contribs, List.map_cons, List.map_nil, List.sum_cons,
        List.sum_nil]
      rw [dN_fuel hWF a w (a + 1) ha (Nat.lt_succ_self a)]
      show dataAt G w * dFwd G ℓ a = dataAt G w * dFwd G ℓ a + 0
      ring

/-! # Pointwise derivatives of the activation formulas -/

theorem hasDerivAt_tanh_formula {u : ℝ → ℝ} {du t0 : ℝ} (hu : HasDerivAt u du t0) :
    HasDerivAt (fun t => (Real.exp (2 * u t) - 1) / (Real.exp (2 * u t) + 1))
      ((1 - ((Real.exp (2 * u t0) - 1) / (Real.exp (2 * u t0) + 1)) ^ 2) * du) t0 := by
  have hexp : HasDerivAt (fun t => Real.exp (2 * u t))
      (Real.exp (2 * u t0) * (2 * du)) t0 := (hu.const_mul 2).exp
  have hnum := hexp.sub_const 1
  have hden := hexp.add_const 1
  have hden0 : Real.exp (2 * u t0) + 1 ≠ 0 := by positivity
  have hdiv := hnum.div hden hden0
  convert hdiv using 1
  field_simp
  ring

theorem hasDerivAt_relu_comp {u : ℝ → ℝ} {du t0 : ℝ} (hu : HasDerivAt u du t0)
    (hne : u t0 ≠ 0) :
    HasDerivAt (fun t => if u t < 0 then 0 else u t)
      ((if 0 < (if u t0 < 0 then (0 : ℝ) else u t0) then (1 : ℝ) else 0) * du) t0 := by
  rcases hne.lt_or_lt with hneg | hpos
  · have hev : ∀ᶠ t in 𝓝 t0, u t < 0 :=
      hu.continuousAt.eventually (gt_mem_nhds hneg)
    have heq : (fun t => if u t < 0 then (0 : ℝ) else u t) =ᶠ[𝓝 t0] fun _ => 0 :=
      hev.mono fun t ht => if_pos ht
    have hval : (if 0 < (if u t0 < 0 then (0 : ℝ) else u t0) then (1 : ℝ) else 0) * du
        = 0 := by
      rw [if_pos hneg]
      simp
    rw [hval]
    exact (hasDerivAt_const t0 (0 : ℝ)).congr_of_eventuallyEq heq
  · have hev : ∀ᶠ t in 𝓝 t0, 0 < u t :=
      hu.continuousAt.eventually (lt_mem_nhds hpos)
    have heq : (fun t => if u t < 0 then (0 : ℝ) else u t) =ᶠ[𝓝 t0] u :=
      hev.mono fun t ht => if_neg (not_lt.2 ht.le)
    have hval : (if 0 < (if u t0 < 0 then (0 : ℝ) else u t0) then (1 : ℝ) else 0) * du
        = du := by
      rw [if_neg (not_lt.2 hpos.le), if_pos hpos, one_mul]
    rw [hval]
    exact hu.congr_of_eventuallyEq heq

theorem central_diff_of_hasDerivAt {f : ℝ → ℝ} {d x : ℝ} (h : HasDerivAt f d x) :
    Tendsto (fun ε => (f (x + ε) - f (x - ε)) / (2 * ε)) (𝓝[≠] (0 : ℝ)) (𝓝 d) := by
  have hs := hasDerivAt_iff_tendsto_slope_zero.1 h
  have hneg : Tendsto (fun ε : ℝ => -ε) (𝓝[≠] (0 : ℝ)) (𝓝[≠] (0 : ℝ)) := by
    have h1 : Tendsto (fun ε : ℝ => -ε) (𝓝 (0 : ℝ)) (𝓝 (0 : ℝ)) := by
      simpa using (continuous_neg.tendsto (0 : ℝ))
    refine tendsto_nhdsWithin_of_tendsto_nhds_of_eventually_within _
      (h1.mono_left nhdsWithin_le_nhds) ?_
    filter_upwards [self_mem_nhdsWithin] with ε hε
    simp only [Set.mem_compl_iff, Set.mem_singleton_iff] at hε ⊢
    exact neg_ne_zero.2 hε
  have hs2 := hs.comp hneg
  have hcomb := (hs.add hs2).div_const (2 : ℝ)
  have hval : (d + d) / 2 = d := by ring
  rw [hval] at hcomb
  refine Tendsto.congr' ?_ hcomb
  filter_upwards [self_mem_nhdsWithin] with ε hε
  have hε0 : ε ≠ 0 := hε
  simp only [Function.comp_apply, smul_eq_mul]
  have harg : x + -ε = x - ε := by ring
  rw [harg, inv_neg, neg_mul, inv_mul_eq_div, inv_mul_eq_div, ← sub_eq_add_neg,
    div_sub_div_same, div_div, mul_comm ε 2]
  congr 1
  ring

/-- Chain rule over the graph: each node's recomputed value, as a function of
the value of leaf `ℓ` (all other leaves fixed at their stored data), is
differentiable at the stored data of `ℓ` with derivative given by the
forward-mode recursion `dFwd` — whose local coefficients are exactly the ones
the backward closures use. -/
theorem hasDerivAt_evalNode {G : Graph} (hWF : WF G) (hD : DataOK G) (hN : Nice G)
    (ℓ : Nat) :
    ∀ v, HasDerivAt
      (fun t => evalNode G (Function.update (fun i => dataAt G i) ℓ t) v)
      (dFwd G ℓ v) (dataAt G ℓ) := by
  intro v
  induction v using Nat.strong_induction_on with
  | _ v ih =>
      cases hop : opAt G v with
      | leaf =>
          have hfn : (fun t => evalNode G (Function.update (fun i => dataAt G i) ℓ t) v)
              = fun t => if v = ℓ then t else dataAt G v := by
            funext t
            show evalN G (Function.update (fun i => dataAt G i) ℓ t) (v + 1) v = _
            simp only [evalN, hop, Function.update_apply]
          have hdf : dFwd G ℓ v = if v = ℓ then 1 else 0 := by
            show dN G ℓ (v + 1) v = _
            simp only [dN, hop]
          rw [hfn, hdf]
          by_cases hvl : v = ℓ
          · simp only [if_pos hvl]
            exact hasDerivAt_id _
          · simp only [if_neg hvl]
            exact hasDerivAt_const _ _
      | add a b =>
          have hvlen : v < glen G := lt_glen_of_opAt hop (by simp)
          have ha : a < v := hWF v hvlen a (by rw [hop]; simp [childList])
          have hb : b < v := hWF v hvlen b (by rw [hop]; simp [childList])
          have hfn : (fun t => evalNode G (Function.update (fun i => dataAt G i) ℓ t) v)
              = fun t => evalNode G (Function.update (fun i => dataAt G i) ℓ t) a
                  + evalNode G (Function.update (fun i => dataAt G i) ℓ t) b := by
            funext t
            show evalN G (Function.update (fun i => dataAt G i) ℓ t) (v + 1) v = _
            simp only [evalN, hop]
            rw [evalN_fuel hWF a v (a + 1) ha (Nat.lt_succ_self a),
              evalN_fuel hWF b v (b + 1) hb (Nat.lt_succ_self b)]
            rfl
          have hdf : dFwd G ℓ v = dFwd G ℓ a + dFwd G ℓ b := by
            show dN G ℓ (v + 1) v = _
            simp only [dN, hop]
            rw [dN_fuel hWF a v (a + 1) ha (Nat.lt_succ_self a),
              dN_fuel hWF b v (b + 1) hb (Nat.lt_succ_self b)]
            rfl
          rw [hfn, hdf]
          exact (ih a ha).add (ih b hb)
      | mul a b =>
          have hvlen : v < glen G := lt_glen_of_opAt hop (by simp)
          have ha : a < v := hWF v hvlen a (by rw [hop]; simp [childList])
          have hb : b < v := hWF v hvlen b (by rw [hop]; simp [childList])
          have hU0a : evalNode G (Function.update (fun i => dataAt G i) ℓ (dataAt G ℓ)) a
              = dataAt G a := by
            rw [show Function.update (fun i => dataAt G i) ℓ (dataAt G ℓ)
                = (fun i => dataAt G i) from Function.update_eq_self ℓ _]
            exact evalNode_data hWF hD a
          have hU0b : evalNode G (Function.update (fun i => dataAt G i) ℓ (dataAt G ℓ)) b
              = dataAt G b := by
            rw [show Function.update (fun i => dataAt G i) ℓ (dataAt G ℓ)
                = (fun i => dataAt G i) from Function.update_eq_self ℓ _]
            exact evalNode_data hWF hD b
          have hfn : (fun t => evalNode G (Function.update (fun i => dataAt G i) ℓ t) v)
              = fun t => evalNode G (Function.update (fun i => dataAt G i) ℓ t) a
                  * evalNode G (Function.update (fun i => dataAt G i) ℓ t) b := by
            funext t
            show evalN G (Function.update (fun i => dataAt G i) ℓ t) (v + 1) v = _
            simp only [evalN, hop]
            rw [evalN_fuel hWF a v (a + 1) ha (Nat.lt_succ_self a),
              evalN_fuel hWF b v (b + 1) hb (Nat.lt_succ_self b)]
            rfl
          have hdf : dFwd G ℓ v = dataAt G b * dFwd G ℓ a + dataAt G a * dFwd G ℓ b := by
            show dN G ℓ (v + 1) v = _
            simp only [dN, hop]
            rw [dN_fuel hWF a v (a + 1) ha (Nat.lt_succ_self a),
              dN_fuel hWF b v (b + 1) hb (Nat.lt_succ_self b)]
            rfl
          have h := (ih a ha).mul (ih b hb)
          rw [hU0a, hU0b] at h
          have hval : dFwd G ℓ a * dataAt G b + dataAt G a * dFwd G ℓ b
              = dataAt G b * dFwd G ℓ a + dataAt G a * dFwd G ℓ b := by ring
          rw [hval] at h
          rw [hfn, hdf]
          exact h
      | powc a n =>
          have hvlen : v < glen G := lt_glen_of_opAt hop (by simp)
          have ha : a < v := hWF v hvlen a (by rw [hop]; simp [childList])
          have hnice : dataAt G a ≠ 0 ∨ 0 ≤ n := by
            have h0 := hN v hvlen
            unfold LocalNice at h0
            simp only [hop] at h0
            exact h0
          have hU0 : evalNode G (Function.update (fun i => dataAt G i) ℓ (dataAt G ℓ)) a
              = dataAt G a := by
            rw [show Function.update (fun i => dataAt G i) ℓ (dataAt G ℓ)
                = (fun i => dataAt G i) from Function.update_eq_self ℓ _]
            exact evalNode_data hWF hD a
          have hfn : (fun t => evalNode G (Function.update (fun i => dataAt G i) ℓ t) v)
              = fun t => evalNode G (Function.update (fun i => dataAt G i) ℓ t) a ^ n := by
            funext t
            show evalN G (Function.update (fun i => dataAt G i) ℓ t) (v + 1) v = _
            simp only [evalN, hop]
            rw [evalN_fuel hWF a v (a + 1) ha (Nat.lt_succ_self a)]
            rfl
          have hdf : dFwd G ℓ v = (n : ℝ) * dataAt G a ^ (n - 1) * dFwd G ℓ a := by
            show dN G ℓ (v + 1) v = _
            simp only [dN, hop]
            rw [dN_fuel hWF a v (a + 1) ha (Nat.lt_succ_self a)]
            rfl
          have hzp := hasDerivAt_zpow n (dataAt G a) hnice
          rw [← hU0] at hzp
          have h := HasDerivAt.comp (dataAt G ℓ) hzp (ih a ha)
          rw [hfn, hdf, ← hU0]
          exact h
      | tanh a =>
          have hvlen : v < glen G := lt_glen_of_opAt hop (by simp)
          have ha : a < v := hWF v hvlen a (by rw [hop]; simp [childList])
          have hL := hD v hvlen
          unfold LocalOK at hL
          simp only [hop] at hL
          have hU0 : evalNode G (Function.update (fun i => dataAt G i) ℓ (dataAt G ℓ)) a
              = dataAt G a := by
            rw [show Function.update (fun i => dataAt G i) ℓ (dataAt G ℓ)
                = (fun i => dataAt G i) from Function.update_eq_self ℓ _]
            exact evalNode_data hWF hD a
          have hfn : (fun t => evalNode G (Function.update (fun i => dataAt G i) ℓ t) v)
              = fun t =>
                  (Real.exp (2 * evalNode G (Function.update (fun i => dataAt G i) ℓ t) a) - 1)
                  / (Real.exp (2 * evalNode G (Function.update (fun i => dataAt G i) ℓ t) a) + 1) := by
            funext t
            show evalN G (Function.update (fun i => dataAt G i) ℓ t) (v + 1) v = _
            simp only [evalN, hop]
            rw [evalN_fuel hWF a v (a + 1) ha (Nat.lt_succ_self a)]
            rfl
          have hdf : dFwd G ℓ v = (1 - dataAt G v ^ 2) * dFwd G ℓ a := by
            show dN G ℓ (v + 1) v = _
            simp only [dN, hop]
            rw [dN_fuel hWF a v (a + 1) ha (Nat.lt_succ_self a)]
            rfl
          have h := hasDerivAt_tanh_formula (ih a ha)
          rw [hU0, ← hL] at h
          rw [hfn, hdf]
          exact h
      | relu a =>
          have hvlen : v < glen G := lt_glen_of_opAt hop (by simp)
          have ha : a < v := hWF v hvlen a (by rw [hop]; simp [childList])
          have hL := hD v hvlen
          unfold LocalOK at hL
          simp only [hop] at hL
          have hnice : dataAt G a ≠ 0 := by
            have h0 := hN v hvlen
            unfold LocalNice at h0
            simp only [hop] at h0
            exact h0
          have hU0 : evalNode G (Function.update (fun i => dataAt G i) ℓ (dataAt G ℓ)) a
              = dataAt G a := by
            rw [show Function.update (fun i => dataAt G i) ℓ (dataAt G ℓ)
                = (fun i => dataAt G i) from Function.update_eq_self ℓ _]
            exact evalNode_data hWF hD a
          have hfn : (fun t => evalNode G (Function.update (fun i => dataAt G i) ℓ t) v)
              = fun t =>
                  if evalNode G (Function.update (fun i => dataAt G i) ℓ t) a < 0 then 0
                  else evalNode G (Function.update (fun i => dataAt G i) ℓ t) a := by
            funext t
            show evalN G (Function.update (fun i => dataAt G i) ℓ t) (v + 1) v = _
            simp only [evalN, hop]
            rw [evalN_fuel hWF a v (a + 1) ha (Nat.lt_succ_self a)]
            rfl
          have hdf : dFwd G ℓ v = (if 0 < dataAt G v then (1 : ℝ) else 0) * dFwd G ℓ a := by
            show dN G ℓ (v + 1) v = _
            simp only [dN, hop]
            rw [dN_fuel hWF a v (a + 1) ha (Nat.lt_succ_self a)]
            rfl
          have hne : evalNode G (Function.update (fun i => dataAt G i) ℓ (dataAt G ℓ)) a
              ≠ 0 := by
            rw [hU0]
            exact hnice
          have h := hasDerivAt_relu_comp (ih a ha) hne
          rw [hU0, ← hL] at h
          rw [hfn, hdf]
          exact h
      | exp a =>
          have hvlen : v < glen G := lt_glen_of_opAt hop (by simp)
          have ha : a < v := hWF v hvlen a (by rw [hop]; simp [childList])
          have hL := hD v hvlen
          unfold LocalOK at hL
          simp only [hop] at hL
          have hU0 : evalNode G (Function.update (fun i => dataAt G i) ℓ (dataAt G ℓ)) a
              = dataAt G a := by
            rw [show Function.update (fun i => dataAt G i) ℓ (dataAt G ℓ)
                = (fun i => dataAt G i) from Function.update_eq_self ℓ _]
            exact evalNode_data hWF hD a
          have hfn : (fun t => evalNode G (Function.update (fun i => dataAt G i) ℓ t) v)
              = fun t =>
                  Real.exp (evalNode G (Function.update (fun i => dataAt G i) ℓ t) a) := by
            funext t
            show evalN G (Function.update (fun i => dataAt G i) ℓ t) (v + 1) v = _
            simp only [evalN, hop]
            rw [evalN_fuel hWF a v (a + 1) ha (Nat.lt_succ_self a)]
            rfl
          have hdf : dFwd G ℓ v = dataAt G v * dFwd G ℓ a := by
            show dN G ℓ (v + 1) v = _
            simp only [dN, hop]
            rw [dN_fuel hWF a v (a + 1) ha (Nat.lt_succ_self a)]
            rfl
          have h := (ih a ha).exp
          rw [hU0, ← hL] at h
          rw [hfn, hdf]
          exact h

/-! # Summation helpers -/

theorem list_sum_map_add {α : Type} (l : List α) (f g : α → ℝ) :
    (l.map fun x => f x + g x).sum = (l.map f).sum + (l.map g).sum := by
  induction l with
  | nil => simp
  | cons a t ih =>
      rw [List.map_cons, List.sum_cons, List.map_cons, List.sum_cons,
        List.map_cons, List.sum_cons, ih]
      ring

theorem list_sum_map_mul_right {α : Type} (l : List α) (f : α → ℝ) (c : ℝ) :
    (l.map fun x => f x * c).sum = (l.map f).sum * c := by
  induction l with
  | nil => simp
  | cons a t ih =>
      rw [List.map_cons, List.sum_cons, List.map_cons, List.sum_cons, ih]
      ring

theorem sum_map_ite_single {c : Nat} {rest : List Nat} (hnd : rest.Nodup)
    (hc : c ∈ rest) (k : ℝ) (F : Nat → ℝ) :
    (rest.map fun u => (if c = u then k else 0) * F u).sum = k * F c := by
  induction rest with
  | nil => simp at hc
  | cons r t ihr =>
      rw [List.nodup_cons] at hnd
      rw [List.map_cons, List.sum_cons]
      rcases List.mem_cons.1 hc with rfl | hct
      · rw [if_pos rfl]
        have hz : (t.map fun u => (if c = u then k else 0) * F u).sum = 0 := by
          apply List.sum_eq_zero
          intro x hx
          rcases List.mem_map.1 hx with ⟨u, hu, rfl⟩
          have hcu : ¬c = u := fun hEq => hnd.1 (hEq ▸ hu)
          rw [if_neg hcu, zero_mul]
        rw [hz, add_zero]
      · have hcr : ¬c = r := fun hEq => hnd.1 (hEq ▸ hct)
        rw [if_neg hcr, zero_mul, zero_add]
        exact ihr hnd.2 hct

theorem sum_coeff_list {rest : List Nat} (hnd : rest.Nodup) :
    ∀ L : List (Nat × ℝ), (∀ ck ∈ L, ck.1 ∈ rest) → ∀ F : Nat → ℝ,
      (rest.map fun u => ((L.map fun e => if e.1 = u then e.2 else 0).sum) * F u).sum
        = (L.map fun ck => ck.2 * F ck.1).sum := by
  intro L
  induction L with
  | nil => intro _ F; simp
  | cons ck L ihL =>
      intro hsub F
      have hpt : ∀ u ∈ rest, (((ck :: L).map fun e => if e.1 = u then e.2 else 0).sum) * F u
          = (if ck.1 = u then ck.2 else 0) * F u
            + ((L.map fun e => if e.1 = u then e.2 else 0).sum) * F u := by
        intro u _
        rw [List.map_cons, List.sum_cons, add_mul]
      rw [List.map_congr_left hpt, list_sum_map_add,
        sum_map_ite_single hnd (hsub ck (by simp)) ck.2 F,
        ihL (fun e he => hsub e (by simp [he])) F, List.map_cons, List.sum_cons]

/-- The conserved quantity of the reverse sweep: pairing the gradients with
any per-node family `F` satisfying the local chain identity, the pairing over
the pending nodes is conserved, so the initial pairing equals the final
gradients paired with `F` over the leaf nodes only. -/
theorem sweepF_dot_invariant {G : Graph} (F : Nat → ℝ) :
    ∀ {p : List Nat}, ProcValid G p →
      (∀ w ∈ p, opAt G w ≠ Op.leaf →
        F w = ((contribs G w).map fun ck => ck.2 * F ck.1).sum) →
      ∀ g : Nat → ℝ,
        (p.map fun u => g u * F u).sum
          = (p.map fun u =>
              if opAt G u = Op.leaf then sweepF G p g u * F u else 0).sum := by
  intro p hp
  induction hp with
  | nil => intro _ g; simp
  | @cons w rest hch hcons hnm hpv ih =>
      intro hchain g
      have hwp : sweepF G (w :: rest) g w = g w := by
        show sweepF G rest (stepF G w g) w = g w
        rw [sweepF_untouched hcons, stepF_untouched (fun hin => hnm (hch w hin))]
      have hswF : ∀ u, sweepF G (w :: rest) g u = sweepF G rest (stepF G w g) u :=
        fun u => rfl
      by_cases hleaf : opAt G w = Op.leaf
      · have hcnil : contribs G w = [] := by simp [contribs, hleaf]
        have hstep : stepF G w g = g := by
          unfold stepF
          rw [hcnil]
          rfl
        calc ((w :: rest).map fun u => g u * F u).sum
            = g w * F w + (rest.map fun u => g u * F u).sum := by
              rw [List.map_cons, List.sum_cons]
          _ = g w * F w + (rest.map fun u =>
                if opAt G u = Op.leaf then sweepF G rest g u * F u else 0).sum := by
              rw [ih (fun u hu hnl => hchain u (by simp [hu]) hnl) g]
          _ = ((w :: rest).map fun u =>
                if opAt G u = Op.leaf then sweepF G (w :: rest) g u * F u else 0).sum := by
              rw [List.map_cons, List.sum_cons, if_pos hleaf, hwp]
              congr 1
              apply congrArg List.sum
              apply List.map_congr_left
              intro u _
              rw [hswF u, hstep]
      · have hnd : rest.Nodup := procValid_nodup hpv
        have hsub : ∀ ck ∈ contribs G w, ck.1 ∈ rest :=
          fun ck hck => hch ck.1 (contribs_fst ck hck)
        have hkey : (rest.map fun u => stepF G w g u * F u).sum
            = (rest.map fun u => g u * F u).sum + g w * F w := by
          have h1 : ∀ u ∈ rest, stepF G w g u * F u
              = g u * F u + (coeff G w u * F u) * g w := by
            intro u _
            rw [stepF_apply]
            ring
          rw [List.map_congr_left h1, list_sum_map_add, list_sum_map_mul_right]
          have h2 : (rest.map fun u => coeff G w u * F u).sum
              = ((contribs G w).map fun ck => ck.2 * F ck.1).sum := by
            have h3 : ∀ u ∈ rest, coeff G w u * F u
                = (((contribs G w).map fun e => if e.1 = u then e.2 else 0).sum) * F u := by
              intro u _
              rfl
            rw [List.map_congr_left h3]
            exact sum_coeff_list hnd (contribs G w) hsub F
          rw [h2, ← hchain w (by simp) hleaf]
          ring
        calc ((w :: rest).map fun u => g u * F u).sum
            = g w * F w + (rest.map fun u => g u * F u).sum := by
              rw [List.map_cons, List.sum_cons]
          _ = (rest.map fun u => stepF G w g u * F u).sum := by
              rw [hkey]
              ring
          _ = (rest.map fun u =>
                if opAt G u = Op.leaf then sweepF G rest (stepF G w g) u * F u else 0).sum :=
              ih (fun u hu hnl => hchain u (by simp [hu]) hnl) (stepF G w g)
          _ = ((w :: rest).map fun u =>
                if opAt G u = Op.leaf then sweepF G (w :: rest) g u * F u else 0).sum := by
              rw [List.map_cons, List.sum_cons, if_neg hleaf, zero_add]
              apply congrArg List.sum
              apply List.map_congr_left
              intro u _
              rw [hswF u]

/-! # Order-independence of the backward pass -/

theorem backwardWith_recurrence {G : Graph} {e : Nat → List Nat} {root : Nat}
    (hWF : WF G) (hroot : root < glen G) (hE : EnumOK G e) :
    ∀ v, gradAt (backwardWith e G root) v
      = Function.update (gradsOf G) root 1 v
        + ((buildTopoWith e G root).map
            fun w => coeff G w v * gradAt (backwardWith e G root) w).sum := by
  obtain ⟨hnd, htopo, _⟩ := buildTopoWith_spec root hWF hE
  have hPV := procValid_reverse htopo hnd
  have hsim := gradsOf_backwardWith (e := e) hWF hroot
  have hpt : ∀ u, sweepF G (buildTopoWith e G root).reverse
      (Function.update (gradsOf G) root 1) u = gradAt (backwardWith e G root) u := by
    intro u
    rw [← hsim]
    rfl
  intro v
  have h0 := sweepF_recurrence hPV (Function.update (gradsOf G) root 1) v
  rw [hpt v] at h0
  have hfa : ((buildTopoWith e G root).reverse.map
      fun w => coeff G w v * sweepF G (buildTopoWith e G root).reverse
        (Function.update (gradsOf G) root 1) w)
      = (buildTopoWith e G root).reverse.map
          fun w => coeff G w v * gradAt (backwardWith e G root) w := by
    apply List.map_congr_left
    intro w _
    rw [hpt w]
  rw [hfa] at h0
  rw [h0, List.map_reverse, List.sum_reverse]

theorem recurrence_unique {G : Graph} (hWF : WF G) (root : Nat) {S : Finset Nat}
    (hS : ∀ w ∈ S, w ≤ root) (b f1 f2 : Nat → ℝ)
    (h1 : ∀ v, f1 v = b v + S.sum fun w => coeff G w v * f1 w)
    (h2 : ∀ v, f2 v = b v + S.sum fun w => coeff G w v * f2 w) :
    ∀ v, f1 v = f2 v := by
  have key : ∀ n v, root + 1 - v ≤ n → f1 v = f2 v := by
    intro n
    induction n with
    | zero =>
        intro v hv
        rw [h1 v, h2 v]
        congr 1
        apply Finset.sum_congr rfl
        intro w hw
        have h0 : coeff G w v = 0 := by
          apply coeff_eq_zero
          intro hvc
          have hvw := wf_children_lt hWF w v hvc
          have hwle := hS w hw
          omega
        rw [h0]
        ring
    | succ n ih =>
        intro v hv
        rw [h1 v, h2 v]
        congr 1
        apply Finset.sum_congr rfl
        intro w hw
        rcases eq_or_ne (coeff G w v) 0 with hc | hc
        · rw [hc]
          ring
        · have hvc : v ∈ childList (opAt G w) := by
            by_contra hmem
            exact hc (coeff_eq_zero hmem)
          have hvw : v < w := wf_children_lt hWF w v hvc
          have hwle : w ≤ root := hS w hw
          rw [ih w (by omega)]
  exact fun v => key (root + 1 - v) v le_rfl

/-- C9: the final gradients do not depend on the order in which each node's
operand set (`_prev`, a Python set with unspecified iteration order) is
enumerated by the depth-first traversal: for the same graph with all-zero
entry gradients, backward passes run with any two operand enumeration orders
assign the same gradient to every node. -/
theorem backward_enum_order_irrelevant (G : Graph) (root : Nat)
    (e1 e2 : Nat → List Nat) (hWF : WF G) (hroot : root < glen G)
    (he1 : EnumOK G e1) (he2 : EnumOK G e2) (hzero : ∀ u, gradAt G u = 0) :
    ∀ v, gradAt (backwardWith e1 G root) v = gradAt (backwardWith e2 G root) v := by
  obtain ⟨hnd1, _, hm1⟩ := buildTopoWith_spec root hWF he1
  obtain ⟨hnd2, _, hm2⟩ := buildTopoWith_spec root hWF he2
  have hrec1 := backwardWith_recurrence hWF hroot he1
  have hrec2 := backwardWith_recurrence hWF hroot he2
  have hSeq : (buildTopoWith e1 G root).toFinset
      = (buildTopoWith e2 G root).toFinset := by
    ext x
    rw [List.mem_toFinset, List.mem_toFinset, hm1 x, hm2 x]
  have hf1 : ∀ v, gradAt (backwardWith e1 G root) v
      = Function.update (gradsOf G) root 1 v
        + (buildTopoWith e1 G root).toFinset.sum
            (fun w => coeff G w v * gradAt (backwardWith e1 G root) w) := by
    intro v
    rw [hrec1 v, List.sum_toFinset _ hnd1]
  have hf2 : ∀ v, gradAt (backwardWith e2 G root) v
      = Function.update (gradsOf G) root 1 v
        + (buildTopoWith e1 G root).toFinset.sum
            (fun w => coeff G w v * gradAt (backwardWith e2 G root) w) := by
    intro v
    rw [hrec2 v, hSeq, List.sum_toFinset _ hnd2]
  have hS : ∀ w ∈ (buildTopoWith e1 G root).toFinset, w ≤ root := by
    intro w hw
    exact reachable_le hWF ((hm1 w).1 (List.mem_toFinset.1 hw))
  exact recurrence_unique hWF root hS _ _ _ hf1 hf2

theorem backward_enum_order_irrelevant_witness :
    (WF [⟨(2 : ℝ), 0, Op.leaf⟩, ⟨3, 0, Op.leaf⟩, ⟨6, 0, Op.mul 0 1⟩] ∧
      2 < glen [⟨(2 : ℝ), 0, Op.leaf⟩, ⟨3, 0, Op.leaf⟩, ⟨6, 0, Op.mul 0 1⟩] ∧
      EnumOK [⟨(2 : ℝ), 0, Op.leaf⟩, ⟨3, 0, Op.leaf⟩, ⟨6, 0, Op.mul 0 1⟩]
        (fun v => childList
          (opAt [⟨(2 : ℝ), 0, Op.leaf⟩, ⟨3, 0, Op.leaf⟩, ⟨6, 0, Op.mul 0 1⟩] v)) ∧
      EnumOK [⟨(2 : ℝ), 0, Op.leaf⟩, ⟨3, 0, Op.leaf⟩, ⟨6, 0, Op.mul 0 1⟩]
        (fun v => (childList
          (opAt [⟨(2 : ℝ), 0, Op.leaf⟩, ⟨3, 0, Op.leaf⟩, ⟨6, 0, Op.mul 0 1⟩] v)).reverse) ∧
      (∀ u, gradAt [⟨(2 : ℝ), 0, Op.leaf⟩, ⟨3, 0, Op.leaf⟩, ⟨6, 0, Op.mul 0 1⟩] u = 0)) ∧
    ∀ v, gradAt (backwardWith
        (fun v => childList
          (opAt [⟨(2 : ℝ), 0, Op.leaf⟩, ⟨3, 0, Op.leaf⟩, ⟨6, 0, Op.mul 0 1⟩] v))
        [⟨(2 : ℝ), 0, Op.leaf⟩, ⟨3, 0, Op.leaf⟩, ⟨6, 0, Op.mul 0 1⟩] 2) v
      = gradAt (backwardWith
          (fun v => (childList
            (opAt [⟨(2 : ℝ), 0, Op.leaf⟩, ⟨3, 0, Op.leaf⟩, ⟨6, 0, Op.mul 0 1⟩] v)).reverse)
          [⟨(2 : ℝ), 0, Op.leaf⟩, ⟨3, 0, Op.leaf⟩, ⟨6, 0, Op.mul 0 1⟩] 2) v :=
  ⟨⟨by decide, by decide, fun v c => Iff.rfl, fun v c => List.mem_reverse,
      by intro u; rcases u with _ | _ | _ | u <;> rfl⟩,
    backward_enum_order_irrelevant
      [⟨(2 : ℝ), 0, Op.leaf⟩, ⟨3, 0, Op.leaf⟩, ⟨6, 0, Op.mul 0 1⟩] 2 _ _
      (by decide) (by decide) (fun v c => Iff.rfl) (fun v c => List.mem_reverse)
      (by intro u; rcases u with _ | _ | _ | u <;> rfl)⟩

/-- C1: gradient correctness.  For an arena built by the forward operations
(`WF` and `DataOK` hold by construction, gradients start at zero), away from
the non-differentiable points of `relu`/`pow` (`Nice`), `backward()` on the
root stores in each leaf's `grad` field the analytic partial derivative of
the computed function with respect to that leaf: the map sending the leaf's
value to the recomputed root value has exactly that derivative at the leaf's
current value.  Consequently (second conjunct) the central finite difference
`(f(x+ε) - f(x-ε)) / (2ε)` converges to the stored gradient as `ε → 0`, the
spec's finite-difference formulation. -/
theorem backward_computes_leaf_derivative (G : Graph) (root ℓ : Nat)
    (hWF : WF G) (hD : DataOK G) (hN : Nice G) (hroot : root < glen G)
    (hzero : ∀ u, gradAt G u = 0) (hleaf : opAt G ℓ = Op.leaf)
    (hreach : Reachable G root ℓ) :
    HasDerivAt
      (fun t => evalNode G (Function.update (fun i => dataAt G i) ℓ t) root)
      (gradAt (backward G root) ℓ) (dataAt G ℓ) ∧
    Tendsto (fun ε =>
        (evalNode G (Function.update (fun i => dataAt G i) ℓ (dataAt G ℓ + ε)) root
          - evalNode G (Function.update (fun i => dataAt G i) ℓ (dataAt G ℓ - ε)) root)
        / (2 * ε)) (𝓝[≠] (0 : ℝ)) (𝓝 (gradAt (backward G root) ℓ)) := by
  obtain ⟨hnd, htopo, hmem⟩ :=
    buildTopoWith_spec root hWF (enumOK_prevOf G)
  have hPV : ProcValid G (buildTopo G root).reverse := procValid_reverse htopo hnd
  have hndr : (buildTopo G root).reverse.Nodup := by
    rw [List.nodup_reverse]
    exact hnd
  have hrootmem : root ∈ (buildTopo G root).reverse := by
    rw [List.mem_reverse]
    exact (hmem root).2 Reachable.refl
  have hlmem : ℓ ∈ (buildTopo G root).reverse := by
    rw [List.mem_reverse]
    exact (hmem ℓ).2 hreach
  have hchain : ∀ w ∈ (buildTopo G root).reverse, opAt G w ≠ Op.leaf →
      dFwd G ℓ w = ((contribs G w).map fun ck => ck.2 * dFwd G ℓ ck.1).sum :=
    fun w _ hnl => dFwd_chain hWF hnl
  have hinv := sweepF_dot_invariant (dFwd G ℓ) hPV hchain
    (Function.update (gradsOf G) root 1)
  have hgpt : ∀ u, Function.update (gradsOf G) root 1 u
      = if root = u then (1 : ℝ) else 0 := by
    intro u
    rw [Function.update_apply]
    rcases eq_or_ne u root with rfl | h
    · simp
    · rw [if_neg h, if_neg (Ne.symm h)]
      exact hzero u
  have hLHS : ((buildTopo G root).reverse.map
      fun u => Function.update (gradsOf G) root 1 u * dFwd G ℓ u).sum
      = dFwd G ℓ root := by
    have hc : ∀ u ∈ (buildTopo G root).reverse,
        Function.update (gradsOf G) root 1 u * dFwd G ℓ u
          = (if root = u then (1 : ℝ) else 0) * dFwd G ℓ u :=
      fun u _ => by rw [hgpt u]
    rw [List.map_congr_left hc,
      sum_map_ite_single hndr hrootmem 1 (dFwd G ℓ), one_mul]
  have hRHS : ((buildTopo G root).reverse.map fun u =>
      if opAt G u = Op.leaf then
        sweepF G (buildTopo G root).reverse (Function.update (gradsOf G) root 1) u
          * dFwd G ℓ u
      else 0).sum
      = sweepF G (buildTopo G root).reverse (Function.update (gradsOf G) root 1) ℓ := by
    have hterm : ∀ u ∈ (buildTopo G root).reverse,
        (if opAt G u = Op.leaf then
          sweepF G (buildTopo G root).reverse (Function.update (gradsOf G) root 1) u
            * dFwd G ℓ u
        else 0)
        = (if ℓ = u then (1 : ℝ) else 0)
            * sweepF G (buildTopo G root).reverse (Function.update (gradsOf G) root 1) u := by
      intro u _
      by_cases hu : opAt G u = Op.leaf
      · rw [if_pos hu]
        have hdfu : dFwd G ℓ u = if u = ℓ then 1 else 0 := by
          show dN G ℓ (u + 1) u = _
          simp only [dN, hu]
        rcases eq_or_ne u ℓ with rfl | hne
        · rw [hdfu, if_pos rfl, mul_one, one_mul]
        · rw [hdfu, if_neg hne, if_neg (Ne.symm hne), mul_zero, zero_mul]
      · rw [if_neg hu]
        rcases eq_or_ne ℓ u with rfl | hne
        · exact absurd hleaf hu
        · rw [if_neg hne, zero_mul]
    rw [List.map_congr_left hterm,
      sum_map_ite_single hndr hlmem 1 _, one_mul]
  have hsim : sweepF G (buildTopo G root).reverse
      (Function.update (gradsOf G) root 1) ℓ = gradAt (backward G root) ℓ := by
    have h := gradsOf_backward hWF hroot
    exact (congrFun h ℓ).symm
  have hident : gradAt (backward G root) ℓ = dFwd G ℓ root := by
    rw [← hsim, ← hRHS, ← hinv]
    exact hLHS
  constructor
  · rw [hident]
    exact hasDerivAt_evalNode hWF hD hN ℓ root
  · rw [hident]
    have hres := central_diff_of_hasDerivAt (hasDerivAt_evalNode hWF hD hN ℓ root)
    exact hres

theorem backward_computes_leaf_derivative_witness :
    (WF [⟨(3 : ℝ), 0, Op.leaf⟩, ⟨9, 0, Op.mul 0 0⟩] ∧
      DataOK [⟨(3 : ℝ), 0, Op.leaf⟩, ⟨9, 0, Op.mul 0 0⟩] ∧
      Nice [⟨(3 : ℝ), 0, Op.leaf⟩, ⟨9, 0, Op.mul 0 0⟩] ∧
      1 < glen [⟨(3 : ℝ), 0, Op.leaf⟩, ⟨9, 0, Op.mul 0 0⟩] ∧
      (∀ u, gradAt [⟨(3 : ℝ), 0, Op.leaf⟩, ⟨9, 0, Op.mul 0 0⟩] u = 0) ∧
      opAt [⟨(3 : ℝ), 0, Op.leaf⟩, ⟨9, 0, Op.mul 0 0⟩] 0 = Op.leaf ∧
      Reachable [⟨(3 : ℝ), 0, Op.leaf⟩, ⟨9, 0, Op.mul 0 0⟩] 1 0) ∧
    (HasDerivAt
      (fun t => evalNode [⟨(3 : ℝ), 0, Op.leaf⟩, ⟨9, 0, Op.mul 0 0⟩]
        (Function.update (fun i => dataAt [⟨(3 : ℝ), 0, Op.leaf⟩, ⟨9, 0, Op.mul 0 0⟩] i) 0 t) 1)
      (gradAt (backward [⟨(3 : ℝ), 0, Op.leaf⟩, ⟨9, 0, Op.mul 0 0⟩] 1) 0)
      (dataAt [⟨(3 : ℝ), 0, Op.leaf⟩, ⟨9, 0, Op.mul 0 0⟩] 0) ∧
    Tendsto (fun ε =>
        (evalNode [⟨(3 : ℝ), 0, Op.leaf⟩, ⟨9, 0, Op.mul 0 0⟩]
          (Function.update (fun i => dataAt [⟨(3 : ℝ), 0, Op.leaf⟩, ⟨9, 0, Op.mul 0 0⟩] i) 0
            (dataAt [⟨(3 : ℝ), 0, Op.leaf⟩, ⟨9, 0, Op.mul 0 0⟩] 0 + ε)) 1
          - evalNode [⟨(3 : ℝ), 0, Op.leaf⟩, ⟨9, 0, Op.mul 0 0⟩]
            (Function.update (fun i => dataAt [⟨(3 : ℝ), 0, Op.leaf⟩, ⟨9, 0, Op.mul 0 0⟩] i) 0
              (dataAt [⟨(3 : ℝ), 0, Op.leaf⟩, ⟨9, 0, Op.mul 0 0⟩] 0 - ε)) 1)
        / (2 * ε)) (𝓝[≠] (0 : ℝ))
      (𝓝 (gradAt (backward [⟨(3 : ℝ), 0, Op.leaf⟩, ⟨9, 0, Op.mul 0 0⟩] 1) 0))) :=
  ⟨⟨by decide,
    by
      intro v hv
      rcases v with _ | _ | v
      · norm_num [LocalOK, opAt, nthV, dataAt]
      · norm_num [LocalOK, opAt, nthV, dataAt]
      · exfalso
        simp only [glen, List.length_cons, List.length_nil] at hv
        omega,
    by
      intro v hv
      rcases v with _ | _ | v
      · norm_num [LocalNice, opAt, nthV]
      · norm_num [LocalNice, opAt, nthV]
      · exfalso
        simp only [glen, List.length_cons, List.length_nil] at hv
        omega,
    by decide,
    by intro u; rcases u with _ | _ | u <;> rfl,
    rfl,
    Reachable.step Reachable.refl (by simp [opAt, nthV, childList])⟩,
    backward_computes_leaf_derivative [⟨(3 : ℝ), 0, Op.leaf⟩, ⟨9, 0, Op.mul 0 0⟩] 1 0
      (by decide)
      (by
        intro v hv
        rcases v with _ | _ | v
        · norm_num [LocalOK, opAt, nthV, dataAt]
        · norm_num [LocalOK, opAt, nthV, dataAt]
        · exfalso
          simp only [glen, List.length_cons, List.length_nil] at hv
          omega)
      (by
        intro v hv
        rcases v with _ | _ | v
        · norm_num [LocalNice, opAt, nthV]
        · norm_num [LocalNice, opAt, nthV]
        · exfalso
          simp only [glen, List.length_cons, List.length_nil] at hv
          omega)
      (by decide)
      (by intro u; rcases u with _ | _ | u <;> rfl)
      rfl
      (Reachable.step Reachable.refl (by simp [opAt, nthV, childList]))⟩

theorem backward_additive_accumulation_witness :
    (WF [⟨(2 : ℝ), 0, Op.leaf⟩, ⟨4, 0, Op.mul 0 0⟩] ∧
      1 < glen [⟨(2 : ℝ), 0, Op.leaf⟩, ⟨4, 0, Op.mul 0 0⟩]) ∧
    ((∀ v, gradAt (backward [⟨(2 : ℝ), 0, Op.leaf⟩, ⟨4, 0, Op.mul 0 0⟩] 1) v
        = Function.update (gradsOf [⟨(2 : ℝ), 0, Op.leaf⟩, ⟨4, 0, Op.mul 0 0⟩]) 1 1 v
          + ((buildTopo [⟨(2 : ℝ), 0, Op.leaf⟩, ⟨4, 0, Op.mul 0 0⟩] 1).map
              fun w => coeff [⟨(2 : ℝ), 0, Op.leaf⟩, ⟨4, 0, Op.mul 0 0⟩] w v *
                gradAt (backward [⟨(2 : ℝ), 0, Op.leaf⟩, ⟨4, 0, Op.mul 0 0⟩] 1) w).sum) ∧
      gradAt (backward [⟨(2 : ℝ), 0, Op.leaf⟩, ⟨4, 0, Op.mul 0 0⟩] 1) 1 = 1 ∧
      ((∀ u, gradAt [⟨(2 : ℝ), 0, Op.leaf⟩, ⟨4, 0, Op.mul 0 0⟩] u = 0) → ∀ v, v ≠ 1 →
        gradAt (backward [⟨(2 : ℝ), 0, Op.leaf⟩, ⟨4, 0, Op.mul 0 0⟩] 1) v
          = ((buildTopo [⟨(2 : ℝ), 0, Op.leaf⟩, ⟨4, 0, Op.mul 0 0⟩] 1).map
              fun w => coeff [⟨(2 : ℝ), 0, Op.leaf⟩, ⟨4, 0, Op.mul 0 0⟩] w v *
                gradAt (backward [⟨(2 : ℝ), 0, Op.leaf⟩, ⟨4, 0, Op.mul 0 0⟩] 1) w).sum)) :=
  ⟨⟨by decide, by decide⟩,
    backward_additive_accumulation _ 1 (by decide) (by decide)⟩

theorem pow_constant_exponent_contract_witness :
    (opAt [⟨(2 : ℝ), 0, Op.leaf⟩, ⟨8, 0, Op.powc 0 3⟩] 1 = Op.powc 0 3 ∧
      0 < glen [⟨(2 : ℝ), 0, Op.leaf⟩, ⟨8, 0, Op.powc 0 3⟩]) ∧
    (vpow [⟨(2 : ℝ), 0, Op.leaf⟩] 0 (PowArg.node 0)
        = Except.error "only supports int/float powers" ∧
      vpow [⟨(2 : ℝ), 0, Op.leaf⟩] 0 (PowArg.num 3)
        = Except.ok ([⟨(2 : ℝ), 0, Op.leaf⟩] ++
            [⟨dataAt [⟨(2 : ℝ), 0, Op.leaf⟩] 0 ^ (3 : ℤ), 0, Op.powc 0 3⟩],
            glen [⟨(2 : ℝ), 0, Op.leaf⟩]) ∧
      gradAt (runBack [⟨(2 : ℝ), 0, Op.leaf⟩, ⟨8, 0, Op.powc 0 3⟩] 1) 0
        = gradAt [⟨(2 : ℝ), 0, Op.leaf⟩, ⟨8, 0, Op.powc 0 3⟩] 0 +
            ((3 : ℤ) : ℝ) * dataAt [⟨(2 : ℝ), 0, Op.leaf⟩, ⟨8, 0, Op.powc 0 3⟩] 0
              ^ ((3 : ℤ) - 1) *
            gradAt [⟨(2 : ℝ), 0, Op.leaf⟩, ⟨8, 0, Op.powc 0 3⟩] 1) :=
  ⟨⟨rfl, by norm_num [glen]⟩,
    pow_constant_exponent_contract [⟨(2 : ℝ), 0, Op.leaf⟩] 0 0 3
      [⟨(2 : ℝ), 0, Op.leaf⟩, ⟨8, 0, Op.powc 0 3⟩] 1 rfl (by norm_num [glen])⟩

end Micrograd
